import Mathlib

/-!
# Voting-power roster

A shallow embedding of `Compute` from `consensus/votepower/roster.go`, with
the properties of the roster it builds: the sum of the two group totals, the
per-voter percentages, the aggregates and the behaviour on degenerate inputs.

Go values are embedded as follows.

* `numeric.Dec` is an 18-decimal fixed-point number, embedded as the integer
  `value * 10^18`.
* A Go `map` is an association list in which every key occurs once; it is read
  through `mapLookup` and summed over its entries.
* A call of `Compute` ends in one of three ways, the constructors of
  `votepower.Outcome`: it returns a roster, it returns
  `ErrVotingPowerNotEqualOne`, or a division by zero stops it.
-/

namespace numeric

/-- Modelled from the spec: the package `numeric` declaring `Dec` is not among
the source files. A `Dec` is a fixed-point decimal with 18 decimals, embedded
as the integer `value * 10^18`. The integer is unbounded. -/
abbrev Dec := Int

/-- Modelled from the spec: number of decimals of a `Dec`. -/
def Precision : Nat := 18

/-- Modelled from the spec: the scale `10^18` of a `Dec`. -/
def precisionReuse : Int := 10 ^ Precision

/-- Modelled from the spec: half a unit of the last kept decimal, `5 * 10^17`. -/
def fivePrecision : Int := precisionReuse / 2

/-- Modelled from the spec: rounding of a non-negative integer carrying 36
decimals to 18 decimals, to the nearest value, a tie going to the even one. -/
def chopNonNeg (d : Int) : Int :=
  let quo := d / precisionReuse
  let rem := d % precisionReuse
  if rem = 0 then quo
  else if rem < fivePrecision then quo
  else if fivePrecision < rem then quo + 1
  else if quo % 2 = 0 then quo
  else quo + 1

/-- Modelled from the spec: rounding of an integer carrying 36 decimals to 18
decimals; a negative number is rounded as its absolute value is. -/
def chopPrecisionAndRound (d : Int) : Int :=
  if d < 0 then -chopNonNeg (-d) else chopNonNeg d

/-- Modelled from the spec: the `Dec` of a whole number. -/
def NewDec (i : Int) : Dec := i * precisionReuse

/-- Modelled from the spec: the `Dec` zero. -/
def ZeroDec : Dec := 0

/-- Modelled from the spec: the `Dec` one. -/
def OneDec : Dec := precisionReuse

/-- Modelled from the spec: exact sum of two `Dec`. -/
def Add (d d2 : Dec) : Dec := d + d2

/-- Modelled from the spec: exact difference of two `Dec`. -/
def Sub (d d2 : Dec) : Dec := d - d2

/-- Modelled from the spec: product of two `Dec`, rounded to 18 decimals. -/
def Mul (d d2 : Dec) : Dec := chopPrecisionAndRound (d * d2)

/-- Modelled from the spec: the value of a quotient of two `Dec` whose divisor
is not zero: the integer quotient with 36 decimals, truncated, then rounded to
18 decimals. -/
def quoValue (d d2 : Dec) : Dec :=
  chopPrecisionAndRound (Int.tdiv (d * precisionReuse * precisionReuse) d2)

/-- Modelled from the spec: quotient of two `Dec`; `none` stands for the
division by zero that stops the program. -/
def Quo (d d2 : Dec) : Option Dec :=
  if d2 = 0 then none else some (quoValue d d2)

/-- Modelled from the spec: test for zero. -/
def IsZero (d : Dec) : Bool := decide (d = 0)

/-- Modelled from the spec: equality of two `Dec`. -/
def Equal (d d2 : Dec) : Bool := decide (d = d2)

/-- Modelled from the spec: the `Dec` written with a whole part `w` and 18
decimals `f`, as `MustNewDecFromStr` reads it from a decimal string. -/
def decOfParts (w f : Int) : Dec := w * precisionReuse + f

end numeric

namespace shard

/-- Modelled from the spec: the package `shard` declaring `BlsPublicKey` is not
among the source files. The serialized identity key, read as a number. -/
abbrev BlsPublicKey := Nat

/-- Modelled from the spec: the payout account of a slot (`common.Address`),
read as a number. -/
abbrev Address := Nat

/-- Modelled from the spec: one validator seat, with its payout account, its
identity key and an optional stake; `TotalStake = none` is the Go `nil` of an
internal slot. -/
structure Slot where
  EcdsaAddress : Address
  BlsPublicKey : BlsPublicKey
  TotalStake : Option numeric.Dec
  deriving DecidableEq, Repr

/-- Modelled from the spec: the ordered slot sequence given to `Compute`. -/
abbrev SlotList := List Slot

end shard

namespace votepower

open numeric shard

/-- The share of the internal slots, `0.68`. -/
def HarmonysShare : Dec := decOfParts 0 680000000000000000

/-- The share of the external slots, `0.32`. -/
def StakersShare : Dec := decOfParts 0 320000000000000000

/-- The voter record built for a slot. -/
structure stakedVoter where
  IsActive : Bool
  IsHarmonyNode : Bool
  EarningAccount : Address
  Identity : BlsPublicKey
  EffectivePercent : Dec
  RawStake : Dec
  deriving DecidableEq, Repr

/-- Assignment `m[k] = v` of a Go map: the entry of `k` is replaced when there
is one, and added otherwise. -/
def mapInsert (m : List (BlsPublicKey × stakedVoter)) (k : BlsPublicKey) (v : stakedVoter) :
    List (BlsPublicKey × stakedVoter) :=
  match m with
  | [] => [(k, v)]
  | (k0, v0) :: rest =>
    if k0 = k then (k, v) :: rest else (k0, v0) :: mapInsert rest k v

/-- Reading `m[k]` of a Go map, `none` when the key is absent. -/
def mapLookup (m : List (BlsPublicKey × stakedVoter)) (k : BlsPublicKey) : Option stakedVoter :=
  match m with
  | [] => none
  | (k0, v0) :: rest => if k0 = k then some v0 else mapLookup rest k

/-- The roster returned by `Compute`. -/
structure Roster where
  Voters : List (BlsPublicKey × stakedVoter)
  OurVotingPowerTotalPercentage : Dec
  TheirVotingPowerTotalPercentage : Dec
  RawStakedTotal : Dec
  HmySlotCount : Int
  deriving DecidableEq, Repr

/-- The empty roster. -/
def NewRoster : Roster :=
  { Voters := []
    OurVotingPowerTotalPercentage := ZeroDec
    TheirVotingPowerTotalPercentage := ZeroDec
    RawStakedTotal := ZeroDec
    HmySlotCount := 0 }

/-- How a call of `Compute` ends. -/
inductive Outcome where
  | roster (r : Roster)
  | ErrVotingPowerNotEqualOne
  | divisionByZero
  deriving DecidableEq, Repr

/-- First loop of `Compute`: counts the slots without a stake and adds up the
stakes of the others. -/
def countLoop : List Slot → Roster → Roster
  | [], roster => roster
  | s :: rest, roster =>
    match s.TotalStake with
    | none => countLoop rest { roster with HmySlotCount := roster.HmySlotCount + 1 }
    | some stake =>
      countLoop rest { roster with RawStakedTotal := Add roster.RawStakedTotal stake }

/-- The variables of the second loop of `Compute`. `lastStakedVoter` is the
record the pointer of that name refers to: the loop variable `member` of the
iteration that set it, of which the map holds a copy. -/
structure loopState where
  roster : Roster
  ourPercentage : Dec
  theirPercentage : Dec
  lastStakedVoter : Option stakedVoter
  deriving DecidableEq, Repr

/-- Body of the second loop of `Compute` for one slot; `none` when a division
by zero stops it. -/
def loopBody (ourCount : Dec) (st : loopState) (s : Slot) : Option loopState :=
  let member : stakedVoter :=
    { IsActive := true
      IsHarmonyNode := true
      EarningAccount := s.EcdsaAddress
      Identity := s.BlsPublicKey
      EffectivePercent := ZeroDec
      RawStake := ZeroDec }
  match s.TotalStake with
  | some stake =>
    match Quo stake st.roster.RawStakedTotal with
    | none => none
    | some q =>
      let member : stakedVoter :=
        { member with
          IsHarmonyNode := false
          RawStake := Add member.RawStake stake
          EffectivePercent := Mul q StakersShare }
      some
        { roster := { st.roster with Voters := mapInsert st.roster.Voters s.BlsPublicKey member }
          ourPercentage := st.ourPercentage
          theirPercentage := Add st.theirPercentage member.EffectivePercent
          lastStakedVoter := some member }
  | none =>
    match Quo HarmonysShare ourCount with
    | none => none
    | some q =>
      let member : stakedVoter := { member with EffectivePercent := q }
      some
        { roster := { st.roster with Voters := mapInsert st.roster.Voters s.BlsPublicKey member }
          ourPercentage := Add st.ourPercentage member.EffectivePercent
          theirPercentage := st.theirPercentage
          lastStakedVoter := st.lastStakedVoter }

/-- Second loop of `Compute`, over the slots in input order. -/
def allocLoop (ourCount : Dec) : List Slot → loopState → Option loopState
  | [], st => some st
  | s :: rest, st =>
    match loopBody ourCount st s with
    | none => none
    | some st1 => allocLoop ourCount rest st1

/-- The two loops of `Compute`: the state reached before the correction. -/
def allocate (staked : SlotList) : Option loopState :=
  let roster := countLoop staked NewRoster
  let ourCount := NewDec roster.HmySlotCount
  allocLoop ourCount staked
    { roster := roster
      ourPercentage := ZeroDec
      theirPercentage := ZeroDec
      lastStakedVoter := none }

/-- The remainder `1 - (ourPercentage + theirPercentage)` of a loop state. -/
def diffOf (st : loopState) : Dec :=
  Sub OneDec (Add st.ourPercentage st.theirPercentage)

/-- The correction step of `Compute`: a non-zero remainder is added to the
record `lastStakedVoter` refers to and to `theirPercentage`. The map in
`roster.Voters` holds its own copy of that record and is not written. -/
def correct (st : loopState) : loopState :=
  let diff := diffOf st
  if !IsZero diff && st.lastStakedVoter.isSome then
    { st with
      lastStakedVoter :=
        st.lastStakedVoter.map fun v =>
          { v with EffectivePercent := Add v.EffectivePercent diff }
      theirPercentage := Add st.theirPercentage diff }
  else st

/-- The final check of `Compute` and the packaging of the roster. -/
def finish (st : loopState) : Outcome :=
  if st.lastStakedVoter.isSome &&
      !Equal (Add st.ourPercentage st.theirPercentage) OneDec then
    Outcome.ErrVotingPowerNotEqualOne
  else
    Outcome.roster
      { st.roster with
        OurVotingPowerTotalPercentage := st.ourPercentage
        TheirVotingPowerTotalPercentage := st.theirPercentage }

/-- The function `Compute`: builds the roster of a slot list. -/
def Compute (staked : SlotList) : Outcome :=
  match allocate staked with
  | none => Outcome.divisionByZero
  | some st => finish (correct st)

/-! ## Notions used to state the properties -/

/-- Number of slots without a stake. -/
def internalCount (staked : SlotList) : Nat :=
  staked.countP fun s => s.TotalStake.isNone

/-- Sum of the stakes of the slots that carry one. -/
def stakeTotal (staked : SlotList) : Dec :=
  (staked.filterMap fun s => s.TotalStake).sum

/-- The identity keys of a slot list are pairwise distinct. -/
def distinctKeys (staked : SlotList) : Prop :=
  (staked.map fun s => s.BlsPublicKey).Nodup

instance (staked : SlotList) : Decidable (distinctKeys staked) := by
  unfold distinctKeys; infer_instance

/-- Every stake carried by a slot of the list is positive. -/
def positiveStakes (staked : SlotList) : Bool :=
  staked.all fun s =>
    match s.TotalStake with
    | some stake => decide (0 < stake)
    | none => true

/-- The list has a slot that carries a stake. -/
def hasExternal (staked : SlotList) : Bool :=
  staked.any fun s => s.TotalStake.isSome

/-- The record the second loop builds for a slot when no division stops it,
given the stake total and the `Dec` of the internal slot count. -/
def voterOf (total ourCount : Dec) (s : Slot) : stakedVoter :=
  match s.TotalStake with
  | some stake =>
    { IsActive := true
      IsHarmonyNode := false
      EarningAccount := s.EcdsaAddress
      Identity := s.BlsPublicKey
      EffectivePercent := Mul (quoValue stake total) StakersShare
      RawStake := Add ZeroDec stake }
  | none =>
    { IsActive := true
      IsHarmonyNode := true
      EarningAccount := s.EcdsaAddress
      Identity := s.BlsPublicKey
      EffectivePercent := quoValue HarmonysShare ourCount
      RawStake := ZeroDec }

/-- The state the body of the second loop leaves when no division stops it. -/
def bodyValue (ourCount : Dec) (st : loopState) (s : Slot) : loopState :=
  let member := voterOf st.roster.RawStakedTotal ourCount s
  { roster := { st.roster with Voters := mapInsert st.roster.Voters s.BlsPublicKey member }
    ourPercentage :=
      if s.TotalStake.isNone then Add st.ourPercentage member.EffectivePercent
      else st.ourPercentage
    theirPercentage :=
      if s.TotalStake.isSome then Add st.theirPercentage member.EffectivePercent
      else st.theirPercentage
    lastStakedVoter := if s.TotalStake.isSome then some member else st.lastStakedVoter }

/-- Sum of `EffectivePercent` over the entries of a voter map. -/
def percentSum (m : List (BlsPublicKey × stakedVoter)) : Dec :=
  (m.map fun e => e.2.EffectivePercent).sum

/-- Sum of `RawStake` over the external voters of a voter map. -/
def externalRawStake (m : List (BlsPublicKey × stakedVoter)) : Dec :=
  ((m.filter fun e => !e.2.IsHarmonyNode).map fun e => e.2.RawStake).sum

/-- Identity key of the last slot in input order that carries a stake. -/
def lastExternalKey (staked : SlotList) : Option BlsPublicKey :=
  ((staked.filter fun s => s.TotalStake.isSome).getLast?).map fun s => s.BlsPublicKey

/-- Sum of the percentages the second loop gives to the slots with a stake. -/
def externalPercent (total : Dec) (l : List Slot) : Dec :=
  ((l.filterMap fun s => s.TotalStake).map fun stake =>
    Mul (quoValue stake total) StakersShare).sum

/-- The state in which the second loop of `Compute` starts. -/
def initState (staked : SlotList) : loopState :=
  { roster := countLoop staked NewRoster
    ourPercentage := ZeroDec
    theirPercentage := ZeroDec
    lastStakedVoter := none }

/-- The voter map the second loop builds from the empty map when no division
stops it. -/
def votersOf (total ourCount : Dec) (l : List Slot) : List (BlsPublicKey × stakedVoter) :=
  l.foldl (fun m s => mapInsert m s.BlsPublicKey (voterOf total ourCount s)) []

/-- The roster `Compute` returns when no division stops it. -/
def rosterOf (staked : SlotList) : Roster :=
  let ourCount := NewDec (internalCount staked)
  let our : Dec := (internalCount staked : Int) * quoValue HarmonysShare ourCount
  { Voters := votersOf (stakeTotal staked) ourCount staked
    OurVotingPowerTotalPercentage := our
    TheirVotingPowerTotalPercentage :=
      if hasExternal staked then Sub OneDec our else ZeroDec
    RawStakedTotal := stakeTotal staked
    HmySlotCount := internalCount staked }

/-- The `EffectivePercent` a call outcome holds for the key `k`. -/
def percentAt (o : Outcome) (k : BlsPublicKey) : Option Dec :=
  match o with
  | Outcome.roster r => (mapLookup r.Voters k).map fun v => v.EffectivePercent
  | _ => none

/-- The slot of an internal node with key `k`. -/
def internalSlot (k : BlsPublicKey) : Slot :=
  { EcdsaAddress := k, BlsPublicKey := k, TotalStake := none }

/-- The slot with key `k` staking the whole amount `n`. -/
def externalSlot (k : BlsPublicKey) (n : Int) : Slot :=
  { EcdsaAddress := k, BlsPublicKey := k, TotalStake := some (NewDec n) }

/-- One internal slot followed by three slots of stake 1. -/
def roundingSlots : SlotList :=
  [internalSlot 1, externalSlot 2 1, externalSlot 3 1, externalSlot 4 1]

/-- Two internal slots followed by slots of stake 60 and 40. -/
def workedSlots : SlotList :=
  [internalSlot 1, internalSlot 2, externalSlot 3 60, externalSlot 4 40]

/-- The slots of `workedSlots` in another order. -/
def workedSlotsReordered : SlotList :=
  [externalSlot 4 40, internalSlot 2, externalSlot 3 60, internalSlot 1]

/-- Number of slots that carry a stake. -/
def externalCount (staked : SlotList) : Nat :=
  staked.countP fun s => s.TotalStake.isSome

/-- Slots of stake 1, 2 and 3. -/
def unevenSlots : SlotList :=
  [externalSlot 1 1, externalSlot 2 2, externalSlot 3 3]

/-- The slots of `roundingSlots` in another order. -/
def roundingSlotsReordered : SlotList :=
  [externalSlot 4 1, externalSlot 2 1, internalSlot 1, externalSlot 3 1]

/-- The last slot of a list, in input order, that has the key `k`. -/
def lastSlotWith (k : BlsPublicKey) : List Slot → Option Slot
  | [] => none
  | s :: rest =>
    match lastSlotWith k rest with
    | some t => some t
    | none => if s.BlsPublicKey = k then some s else none

/-- Two slots with the same key, of stake 60 and 40. -/
def duplicateSlots : SlotList :=
  [externalSlot 1 60, externalSlot 1 40]

/-- A slot of stake 3 followed by a slot of stake -1. -/
def negativeStakeSlots : SlotList :=
  [externalSlot 1 3, externalSlot 2 (-1)]

/-! ## The two loops -/

theorem countLoop_eq (l : List Slot) (r : Roster) :
    countLoop l r =
      { r with
        HmySlotCount := r.HmySlotCount + internalCount l
        RawStakedTotal := r.RawStakedTotal + stakeTotal l } := by
  induction l generalizing r with
  | nil => simp [countLoop, internalCount, stakeTotal]
  | cons s rest ih =>
    cases hs : s.TotalStake with
    | none =>
      simp only [countLoop, hs, ih, internalCount, stakeTotal]
      simp [List.countP_cons, hs, List.filterMap_cons]
      omega
    | some stake =>
      simp only [countLoop, hs, ih, internalCount, stakeTotal]
      simp [List.countP_cons, hs, List.filterMap_cons, numeric.Add]
      ring

theorem loopBody_eq_some (ourCount : Dec) (st st1 : loopState) (s : Slot)
    (h : loopBody ourCount st s = some st1) : st1 = bodyValue ourCount st s := by
  unfold loopBody at h
  cases hs : s.TotalStake with
  | none =>
    simp only [hs, Quo] at h
    split at h
    · simp at h
    · rename_i hq
      split at hq
      · simp at hq
      · simp at hq h
        subst hq; subst h
        simp [bodyValue, voterOf, hs]
  | some stake =>
    simp only [hs, Quo] at h
    split at h
    · simp at h
    · rename_i hq
      split at hq
      · simp at hq
      · simp at hq h
        subst hq; subst h
        simp [bodyValue, voterOf, hs]

theorem loopBody_isSome (ourCount : Dec) (st : loopState) (s : Slot)
    (hint : s.TotalStake = none → ourCount ≠ 0)
    (hext : s.TotalStake.isSome = true → st.roster.RawStakedTotal ≠ 0) :
    loopBody ourCount st s = some (bodyValue ourCount st s) := by
  cases hs : s.TotalStake with
  | none =>
    have h0 := hint hs
    simp [loopBody, hs, Quo, h0, bodyValue, voterOf]
  | some stake =>
    have h0 := hext (by simp [hs])
    simp [loopBody, hs, Quo, h0, bodyValue, voterOf]

theorem allocLoop_eq_some (ourCount : Dec) (l : List Slot) (st st1 : loopState)
    (h : allocLoop ourCount l st = some st1) : st1 = l.foldl (bodyValue ourCount) st := by
  induction l generalizing st with
  | nil => simpa [allocLoop] using h.symm
  | cons s rest ih =>
    unfold allocLoop at h
    cases hb : loopBody ourCount st s with
    | none => simp [hb] at h
    | some st2 =>
      simp only [hb] at h
      rw [List.foldl_cons, ← loopBody_eq_some ourCount st st2 s hb]
      exact ih st2 h

theorem bodyValue_total (ourCount : Dec) (st : loopState) (s : Slot) :
    (bodyValue ourCount st s).roster.RawStakedTotal = st.roster.RawStakedTotal := rfl

theorem bodyValue_count (ourCount : Dec) (st : loopState) (s : Slot) :
    (bodyValue ourCount st s).roster.HmySlotCount = st.roster.HmySlotCount := rfl

theorem foldl_total (ourCount : Dec) (l : List Slot) (st : loopState) :
    (l.foldl (bodyValue ourCount) st).roster.RawStakedTotal = st.roster.RawStakedTotal := by
  induction l generalizing st with
  | nil => rfl
  | cons s rest ih => rw [List.foldl_cons, ih, bodyValue_total]

theorem foldl_count (ourCount : Dec) (l : List Slot) (st : loopState) :
    (l.foldl (bodyValue ourCount) st).roster.HmySlotCount = st.roster.HmySlotCount := by
  induction l generalizing st with
  | nil => rfl
  | cons s rest ih => rw [List.foldl_cons, ih, bodyValue_count]

theorem allocLoop_isSome (ourCount : Dec) (l : List Slot) (st : loopState)
    (hint : internalCount l ≠ 0 → ourCount ≠ 0)
    (hext : hasExternal l = true → st.roster.RawStakedTotal ≠ 0) :
    allocLoop ourCount l st = some (l.foldl (bodyValue ourCount) st) := by
  induction l generalizing st with
  | nil => rfl
  | cons s rest ih =>
    have hb : loopBody ourCount st s = some (bodyValue ourCount st s) := by
      apply loopBody_isSome
      · intro hs
        apply hint
        simp [internalCount, List.countP_cons, hs]
      · intro hs
        apply hext
        simp [hasExternal, hs]
    unfold allocLoop
    simp only [hb, List.foldl_cons]
    apply ih
    · intro hc
      apply hint
      simp only [internalCount, List.countP_cons] at hc ⊢
      omega
    · intro he
      rw [bodyValue_total]
      apply hext
      simp only [hasExternal, List.any_cons] at he ⊢
      simp [he]

theorem foldl_ourPercentage (ourCount : Dec) (l : List Slot) (st : loopState) :
    (l.foldl (bodyValue ourCount) st).ourPercentage =
      st.ourPercentage + (internalCount l : Int) * quoValue HarmonysShare ourCount := by
  induction l generalizing st with
  | nil => simp [internalCount]
  | cons s rest ih =>
    rw [List.foldl_cons, ih]
    cases hs : s.TotalStake with
    | none =>
      simp [bodyValue, voterOf, hs, internalCount, List.countP_cons, numeric.Add]
      ring
    | some stake =>
      simp [bodyValue, voterOf, hs, internalCount, List.countP_cons]

theorem foldl_theirPercentage (ourCount : Dec) (l : List Slot) (st : loopState) :
    (l.foldl (bodyValue ourCount) st).theirPercentage =
      st.theirPercentage + externalPercent st.roster.RawStakedTotal l := by
  induction l generalizing st with
  | nil => simp [externalPercent]
  | cons s rest ih =>
    rw [List.foldl_cons, ih, bodyValue_total]
    cases hs : s.TotalStake with
    | none =>
      simp [bodyValue, voterOf, hs, externalPercent, List.filterMap_cons]
    | some stake =>
      simp [bodyValue, voterOf, hs, externalPercent, List.filterMap_cons, numeric.Add]
      ring

theorem foldl_last_isSome (ourCount : Dec) (l : List Slot) (st : loopState) :
    (l.foldl (bodyValue ourCount) st).lastStakedVoter.isSome =
      (st.lastStakedVoter.isSome || hasExternal l) := by
  induction l generalizing st with
  | nil => simp [hasExternal]
  | cons s rest ih =>
    rw [List.foldl_cons, ih]
    cases hs : s.TotalStake with
    | none => simp [bodyValue, hs, hasExternal]
    | some stake => simp [bodyValue, hs, hasExternal]

theorem foldl_voters (ourCount : Dec) (l : List Slot) (st : loopState) :
    (l.foldl (bodyValue ourCount) st).roster.Voters =
      l.foldl (fun m s => mapInsert m s.BlsPublicKey (voterOf st.roster.RawStakedTotal ourCount s))
        st.roster.Voters := by
  induction l generalizing st with
  | nil => rfl
  | cons s rest ih =>
    rw [List.foldl_cons, ih, bodyValue_total]
    rfl

theorem foldl_ourTotal (ourCount : Dec) (l : List Slot) (st : loopState) :
    (l.foldl (bodyValue ourCount) st).roster.OurVotingPowerTotalPercentage =
      st.roster.OurVotingPowerTotalPercentage := by
  induction l generalizing st with
  | nil => rfl
  | cons s rest ih => rw [List.foldl_cons, ih]; rfl

theorem foldl_theirTotal (ourCount : Dec) (l : List Slot) (st : loopState) :
    (l.foldl (bodyValue ourCount) st).roster.TheirVotingPowerTotalPercentage =
      st.roster.TheirVotingPowerTotalPercentage := by
  induction l generalizing st with
  | nil => rfl
  | cons s rest ih => rw [List.foldl_cons, ih]; rfl

theorem initState_roster (staked : SlotList) :
    (initState staked).roster =
      { Voters := []
        OurVotingPowerTotalPercentage := ZeroDec
        TheirVotingPowerTotalPercentage := ZeroDec
        RawStakedTotal := stakeTotal staked
        HmySlotCount := internalCount staked } := by
  simp [initState, countLoop_eq, NewRoster, ZeroDec]

theorem NewDec_ne_zero (n : Nat) (h : n ≠ 0) : NewDec (n : Int) ≠ 0 := by
  unfold NewDec precisionReuse Precision
  have : (n : Int) ≠ 0 := by exact_mod_cast h
  positivity

theorem allocate_eq (staked : SlotList) :
    allocate staked =
      allocLoop (NewDec (internalCount staked)) staked (initState staked) := by
  simp [allocate, initState, countLoop_eq, NewRoster]

/-- The state the two loops of `Compute` reach when no division stops them. -/
theorem allocate_isSome (staked : SlotList)
    (h : hasExternal staked = true → stakeTotal staked ≠ 0) :
    allocate staked =
      some (staked.foldl (bodyValue (NewDec (internalCount staked))) (initState staked)) := by
  rw [allocate_eq]
  apply allocLoop_isSome
  · exact NewDec_ne_zero _
  · rw [initState_roster]; exact h

theorem externalPercent_of_no_external (total : Dec) (l : List Slot)
    (h : hasExternal l = false) : externalPercent total l = 0 := by
  induction l with
  | nil => rfl
  | cons s rest ih =>
    simp only [hasExternal, List.any_cons, Bool.or_eq_false_iff] at h
    cases hs : s.TotalStake with
    | some stake => simp [hs] at h
    | none =>
      have := ih (by simpa [hasExternal] using h.2)
      simpa [externalPercent, List.filterMap_cons, hs] using this

theorem finish_correct_none (st : loopState) (h : st.lastStakedVoter = none) :
    finish (correct st) =
      Outcome.roster
        { st.roster with
          OurVotingPowerTotalPercentage := st.ourPercentage
          TheirVotingPowerTotalPercentage := st.theirPercentage } := by
  simp [correct, finish, h]

theorem finish_correct_some (st : loopState) (h : st.lastStakedVoter.isSome = true) :
    finish (correct st) =
      Outcome.roster
        { st.roster with
          OurVotingPowerTotalPercentage := st.ourPercentage
          TheirVotingPowerTotalPercentage := numeric.Sub OneDec st.ourPercentage } := by
  by_cases hd : diffOf st = 0
  · have hc : correct st = st := by simp [correct, IsZero, hd]
    have he : st.ourPercentage + st.theirPercentage = OneDec := by
      simp only [diffOf, numeric.Sub, numeric.Add] at hd
      linarith
    have ht : st.theirPercentage = OneDec - st.ourPercentage := by linarith
    rw [hc]
    simp [finish, Equal, numeric.Add, numeric.Sub, he, ht]
  · have hc : correct st =
        { st with
          lastStakedVoter :=
            st.lastStakedVoter.map fun v =>
              { v with EffectivePercent := numeric.Add v.EffectivePercent (diffOf st) }
          theirPercentage := numeric.Add st.theirPercentage (diffOf st) } := by
      simp [correct, IsZero, hd, h]
    have he : st.ourPercentage + (st.theirPercentage + diffOf st) = OneDec := by
      simp only [diffOf, numeric.Sub, numeric.Add]
      ring
    have ht : st.theirPercentage + diffOf st = OneDec - st.ourPercentage := by linarith
    rw [hc]
    simp [finish, Equal, numeric.Add, numeric.Sub, he, ht]

theorem finish_correct_foldl (staked : SlotList) :
    finish (correct (staked.foldl (bodyValue (NewDec (internalCount staked))) (initState staked))) =
      Outcome.roster (rosterOf staked) := by
  generalize hst : staked.foldl (bodyValue (NewDec (internalCount staked))) (initState staked) = st
  have hour := foldl_ourPercentage (NewDec (internalCount staked)) staked (initState staked)
  have htheir := foldl_theirPercentage (NewDec (internalCount staked)) staked (initState staked)
  have hlast := foldl_last_isSome (NewDec (internalCount staked)) staked (initState staked)
  have hvot := foldl_voters (NewDec (internalCount staked)) staked (initState staked)
  have htot := foldl_total (NewDec (internalCount staked)) staked (initState staked)
  have hcnt := foldl_count (NewDec (internalCount staked)) staked (initState staked)
  rw [hst] at hour htheir hlast hvot htot hcnt
  rw [initState_roster] at hvot htot hcnt htheir
  simp only [initState, ZeroDec, Option.isSome_none, Bool.false_or, zero_add] at hour htheir hlast
  simp only at hvot htot hcnt
  cases hx : hasExternal staked with
  | false =>
    rw [hx] at hlast
    rw [externalPercent_of_no_external _ _ hx] at htheir
    have hl : st.lastStakedVoter = none := by
      cases hv : st.lastStakedVoter with
      | none => rfl
      | some v => simp [hv] at hlast
    rw [finish_correct_none st hl]
    simp [rosterOf, votersOf, hx, ZeroDec, hour, htheir, hvot, htot, hcnt]
  | true =>
    rw [hx] at hlast
    rw [finish_correct_some st hlast]
    simp [rosterOf, votersOf, hx, hour, hvot, htot, hcnt]

/-- When no division stops it, `Compute` returns the roster `rosterOf`. -/
theorem Compute_eq (staked : SlotList)
    (h : hasExternal staked = true → stakeTotal staked ≠ 0) :
    Compute staked = Outcome.roster (rosterOf staked) := by
  unfold Compute
  rw [allocate_isSome staked h]
  exact finish_correct_foldl staked

/-- A roster returned by `Compute` is the roster `rosterOf`. -/
theorem Compute_roster_eq (staked : SlotList) (r : Roster)
    (h : Compute staked = Outcome.roster r) : r = rosterOf staked := by
  unfold Compute at h
  cases ha : allocate staked with
  | none => simp [ha] at h
  | some st =>
    rw [ha] at h
    simp only [] at h
    rw [allocate_eq] at ha
    have hst := allocLoop_eq_some _ _ _ _ ha
    rw [hst, finish_correct_foldl] at h
    exact (Outcome.roster.inj h).symm

/-- `Compute` never returns `ErrVotingPowerNotEqualOne`. -/
theorem Compute_ne_err (staked : SlotList) :
    Compute staked ≠ Outcome.ErrVotingPowerNotEqualOne := by
  unfold Compute
  cases ha : allocate staked with
  | none => simp
  | some st =>
    rw [allocate_eq] at ha
    have hst := allocLoop_eq_some _ _ _ _ ha
    simp only []
    rw [hst, finish_correct_foldl]
    simp

theorem stakeTotal_nonneg (l : List Slot) (hpos : positiveStakes l = true) :
    0 ≤ stakeTotal l := by
  induction l with
  | nil => simp [stakeTotal]
  | cons s rest ih =>
    simp only [positiveStakes, List.all_cons, Bool.and_eq_true] at hpos
    have hrest : 0 ≤ stakeTotal rest := ih hpos.2
    simp only [stakeTotal] at hrest
    cases hs : s.TotalStake with
    | none => simpa [stakeTotal, List.filterMap_cons, hs] using hrest
    | some stake =>
      have h1 : 0 < stake := by simpa [hs] using hpos.1
      simp only [stakeTotal, List.filterMap_cons, hs, List.sum_cons]
      linarith

theorem stakeTotal_pos (l : List Slot) (hpos : positiveStakes l = true)
    (hext : hasExternal l = true) : 0 < stakeTotal l := by
  induction l with
  | nil => simp [hasExternal] at hext
  | cons s rest ih =>
    simp only [positiveStakes, List.all_cons, Bool.and_eq_true] at hpos
    cases hs : s.TotalStake with
    | none =>
      simp only [hasExternal, List.any_cons, hs, Option.isSome_none, Bool.false_or] at hext
      have := ih hpos.2 hext
      simpa [stakeTotal, List.filterMap_cons, hs] using this
    | some stake =>
      have h1 : 0 < stake := by simpa [hs] using hpos.1
      have hrest : 0 ≤ stakeTotal rest := stakeTotal_nonneg rest hpos.2
      simp only [stakeTotal] at hrest
      simp only [stakeTotal, List.filterMap_cons, hs, List.sum_cons]
      linarith

theorem mapInsert_of_not_mem (m : List (BlsPublicKey × stakedVoter)) (k : BlsPublicKey)
    (v : stakedVoter) (h : k ∉ m.map Prod.fst) : mapInsert m k v = m ++ [(k, v)] := by
  induction m with
  | nil => rfl
  | cons e rest ih =>
    obtain ⟨k0, v0⟩ := e
    simp only [List.map_cons, List.mem_cons, not_or] at h
    have hne : ¬ k0 = k := fun hk => h.1 hk.symm
    simp [mapInsert, hne, ih h.2]

theorem foldl_mapInsert_of_nodup (f : Slot → stakedVoter) (l : List Slot)
    (m : List (BlsPublicKey × stakedVoter))
    (hnd : (l.map fun s => s.BlsPublicKey).Nodup)
    (hdis : ∀ s ∈ l, s.BlsPublicKey ∉ m.map Prod.fst) :
    l.foldl (fun m s => mapInsert m s.BlsPublicKey (f s)) m =
      m ++ l.map fun s => (s.BlsPublicKey, f s) := by
  induction l generalizing m with
  | nil => simp
  | cons s rest ih =>
    simp only [List.map_cons, List.nodup_cons] at hnd
    rw [List.foldl_cons, mapInsert_of_not_mem m _ _ (hdis s (List.mem_cons_self _ _))]
    rw [ih _ hnd.2]
    · simp
    · intro t ht
      simp only [List.map_append, List.map_cons, List.map_nil, List.mem_append,
        List.mem_singleton, not_or]
      refine ⟨hdis t (List.mem_cons_of_mem _ ht), ?_⟩
      intro hk
      apply hnd.1
      rw [← hk]
      exact List.mem_map_of_mem (fun s => s.BlsPublicKey) ht

/-- With distinct keys the voter map has one entry per slot, in input order. -/
theorem votersOf_eq_map (total ourCount : Dec) (l : List Slot) (h : distinctKeys l) :
    votersOf total ourCount l = l.map fun s => (s.BlsPublicKey, voterOf total ourCount s) := by
  unfold votersOf
  rw [foldl_mapInsert_of_nodup (voterOf total ourCount) l [] h (by simp)]
  simp

theorem mapLookup_map (f : Slot → stakedVoter) (l : List Slot)
    (hnd : (l.map fun s => s.BlsPublicKey).Nodup) (s : Slot) (hs : s ∈ l) :
    mapLookup (l.map fun s => (s.BlsPublicKey, f s)) s.BlsPublicKey = some (f s) := by
  induction l with
  | nil => simp at hs
  | cons t rest ih =>
    simp only [List.map_cons, List.nodup_cons] at hnd
    rcases List.mem_cons.mp hs with rfl | hmem
    · simp [mapLookup]
    · have hne : ¬ t.BlsPublicKey = s.BlsPublicKey := by
        intro hk
        apply hnd.1
        rw [hk]
        exact List.mem_map_of_mem (fun s => s.BlsPublicKey) hmem
      simp [mapLookup, hne, ih hnd.2 hmem]

theorem mapLookup_map_some (f : Slot → stakedVoter) (l : List Slot) (k : BlsPublicKey)
    (v : stakedVoter) (h : mapLookup (l.map fun s => (s.BlsPublicKey, f s)) k = some v) :
    ∃ s ∈ l, s.BlsPublicKey = k ∧ f s = v := by
  induction l with
  | nil => simp [mapLookup] at h
  | cons t rest ih =>
    simp only [List.map_cons, mapLookup] at h
    by_cases hk : t.BlsPublicKey = k
    · simp only [hk, if_true, Option.some.injEq] at h
      exact ⟨t, List.mem_cons_self _ _, hk, h⟩
    · simp only [hk, if_false] at h
      obtain ⟨s, hs, hsk, hv⟩ := ih h
      exact ⟨s, List.mem_cons_of_mem _ hs, hsk, hv⟩

theorem mapLookup_map_perm (f : Slot → stakedVoter) (l l2 : List Slot) (hp : l.Perm l2)
    (hnd : (l.map fun s => s.BlsPublicKey).Nodup) (k : BlsPublicKey) :
    mapLookup (l.map fun s => (s.BlsPublicKey, f s)) k =
      mapLookup (l2.map fun s => (s.BlsPublicKey, f s)) k := by
  have hnd2 : (l2.map fun s => s.BlsPublicKey).Nodup :=
    (hp.map fun s => s.BlsPublicKey).nodup_iff.mp hnd
  apply Option.ext
  intro v
  constructor
  · intro h
    obtain ⟨s, hs, hk, hv⟩ := mapLookup_map_some f l k v h
    rw [← hk, ← hv]
    exact mapLookup_map f l2 hnd2 s (hp.mem_iff.mp hs)
  · intro h
    obtain ⟨s, hs, hk, hv⟩ := mapLookup_map_some f l2 k v h
    rw [← hk, ← hv]
    exact mapLookup_map f l hnd s (hp.mem_iff.mpr hs)

theorem percentSum_map (total ourCount : Dec) (l : List Slot) :
    percentSum (l.map fun s => (s.BlsPublicKey, voterOf total ourCount s)) =
      (internalCount l : Int) * quoValue HarmonysShare ourCount + externalPercent total l := by
  induction l with
  | nil => simp [percentSum, internalCount, externalPercent]
  | cons s rest ih =>
    simp only [percentSum, List.map_cons, List.sum_cons] at ih ⊢
    rw [ih]
    cases hs : s.TotalStake with
    | none =>
      simp [voterOf, hs, internalCount, List.countP_cons, externalPercent, List.filterMap_cons]
      ring
    | some stake =>
      simp [voterOf, hs, internalCount, List.countP_cons, externalPercent, List.filterMap_cons]
      ring

theorem voterOf_isHarmonyNode (total ourCount : Dec) (s : Slot) :
    (voterOf total ourCount s).IsHarmonyNode = s.TotalStake.isNone := by
  cases hs : s.TotalStake <;> simp [voterOf, hs]

theorem voterOf_rawStake (total ourCount : Dec) (s : Slot) :
    (voterOf total ourCount s).RawStake = s.TotalStake.getD ZeroDec := by
  cases hs : s.TotalStake <;> simp [voterOf, hs, numeric.Add, ZeroDec]

theorem externalRawStake_map (total ourCount : Dec) (l : List Slot) :
    externalRawStake (l.map fun s => (s.BlsPublicKey, voterOf total ourCount s)) =
      stakeTotal l := by
  induction l with
  | nil => simp [externalRawStake, stakeTotal]
  | cons s rest ih =>
    simp only [externalRawStake, stakeTotal] at ih
    cases hs : s.TotalStake with
    | none =>
      simp [externalRawStake, stakeTotal, voterOf_isHarmonyNode, voterOf_rawStake, hs,
        List.filter_cons, List.filterMap_cons, ih]
    | some stake =>
      simp [externalRawStake, stakeTotal, voterOf_isHarmonyNode, voterOf_rawStake, hs,
        List.filter_cons, List.filterMap_cons, ih]

theorem internalCount_perm (l l2 : List Slot) (hp : l.Perm l2) :
    internalCount l = internalCount l2 :=
  hp.countP_eq _

theorem stakeTotal_perm (l l2 : List Slot) (hp : l.Perm l2) :
    stakeTotal l = stakeTotal l2 := by
  unfold stakeTotal
  exact (hp.filterMap fun s => s.TotalStake).sum_eq

theorem hasExternal_perm (l l2 : List Slot) (hp : l.Perm l2) :
    hasExternal l = hasExternal l2 := by
  unfold hasExternal
  rw [Bool.eq_iff_iff]
  simp only [List.any_eq_true]
  constructor
  · rintro ⟨s, hs, h⟩; exact ⟨s, hp.mem_iff.mp hs, h⟩
  · rintro ⟨s, hs, h⟩; exact ⟨s, hp.mem_iff.mpr hs, h⟩

theorem positiveStakes_perm (l l2 : List Slot) (hp : l.Perm l2) :
    positiveStakes l = positiveStakes l2 := by
  unfold positiveStakes
  rw [Bool.eq_iff_iff]
  simp only [List.all_eq_true]
  constructor
  · intro h s hs; exact h s (hp.mem_iff.mpr hs)
  · intro h s hs; exact h s (hp.mem_iff.mp hs)

theorem Compute_of_positive (staked : SlotList) (hpos : positiveStakes staked = true) :
    Compute staked = Outcome.roster (rosterOf staked) :=
  Compute_eq staked fun hext => ne_of_gt (stakeTotal_pos staked hpos hext)

theorem rosterOf_sum (staked : SlotList) (hext : hasExternal staked = true) :
    numeric.Add (rosterOf staked).OurVotingPowerTotalPercentage
      (rosterOf staked).TheirVotingPowerTotalPercentage = OneDec := by
  simp [rosterOf, hext, numeric.Add, numeric.Sub]

theorem foldl_last_identity (ourCount : Dec) (l : List Slot) (st : loopState)
    (h : st.lastStakedVoter = none) :
    (l.foldl (bodyValue ourCount) st).lastStakedVoter.map (fun v => v.Identity) =
      lastExternalKey l := by
  induction l using List.reverseRecOn with
  | nil => simp [h, lastExternalKey]
  | append_singleton init s ih =>
    rw [List.foldl_append]
    simp only [List.foldl_cons, List.foldl_nil]
    cases hs : s.TotalStake with
    | none =>
      simp only [bodyValue, hs, Option.isSome_none, Bool.false_eq_true, if_false, ih]
      simp [lastExternalKey, List.filter_append, hs]
    | some stake =>
      simp only [bodyValue, hs, Option.isSome_some, if_true]
      simp [lastExternalKey, List.filter_append, hs, voterOf]

/-- The record `lastStakedVoter` refers to after the two loops is the one of
the last slot in input order that carries a stake. -/
theorem allocate_last_identity (staked : SlotList) (st : loopState)
    (h : allocate staked = some st) :
    st.lastStakedVoter.map (fun v => v.Identity) = lastExternalKey staked := by
  rw [allocate_eq] at h
  rw [allocLoop_eq_some _ _ _ _ h]
  exact foldl_last_identity _ staked (initState staked) rfl

end votepower

/-! ## Rounding of `Mul` and `Quo` -/

namespace numeric

theorem chopNonNeg_bounds (d : Int) :
    2 * (chopNonNeg d * 1000000000000000000 - d) ≤ 1000000000000000000 ∧
      -1000000000000000000 ≤ 2 * (chopNonNeg d * 1000000000000000000 - d) := by
  unfold chopNonNeg fivePrecision precisionReuse Precision
  simp only []
  norm_num
  split_ifs <;> omega

theorem chopNonNeg_mono (d e : Int) (h : d ≤ e) : chopNonNeg d ≤ chopNonNeg e := by
  unfold chopNonNeg fivePrecision precisionReuse Precision
  simp only []
  norm_num
  split_ifs <;> omega

theorem chopNonNeg_nonneg (d : Int) (h : 0 ≤ d) : 0 ≤ chopNonNeg d := by
  unfold chopNonNeg fivePrecision precisionReuse Precision
  simp only []
  norm_num
  split_ifs <;> omega

theorem chop_of_nonneg (d : Int) (h : 0 ≤ d) : chopPrecisionAndRound d = chopNonNeg d := by
  unfold chopPrecisionAndRound
  simp [not_lt.mpr h]

theorem precisionReuse_eq : precisionReuse = 1000000000000000000 := by
  unfold precisionReuse Precision
  norm_num

/-- The truncated quotient inside `Quo`, for a non-negative dividend and a
positive divisor. -/
theorem tdiv_bounds (a b : Int) (ha : 0 ≤ a) (hb : 0 < b) :
    0 ≤ Int.tdiv a b ∧ Int.tdiv a b * b ≤ a ∧ a < Int.tdiv a b * b + b := by
  rw [Int.tdiv_eq_ediv ha (le_of_lt hb)]
  refine ⟨Int.ediv_nonneg ha (le_of_lt hb), Int.ediv_mul_le a (ne_of_gt hb), ?_⟩
  have := Int.lt_ediv_add_one_mul_self a hb
  linarith

theorem tdiv_mono (a c b : Int) (ha : 0 ≤ a) (hac : a ≤ c) (hb : 0 < b) :
    Int.tdiv a b ≤ Int.tdiv c b := by
  rw [Int.tdiv_eq_ediv ha (le_of_lt hb), Int.tdiv_eq_ediv (le_trans ha hac) (le_of_lt hb)]
  exact Int.ediv_le_ediv hb hac

theorem quoValue_nonneg (d d2 : Dec) (hd : 0 ≤ d) (hd2 : 0 < d2) : 0 ≤ quoValue d d2 := by
  unfold quoValue
  have hP : (0 : Int) ≤ precisionReuse := by rw [precisionReuse_eq]; norm_num
  have ha : 0 ≤ d * precisionReuse * precisionReuse := mul_nonneg (mul_nonneg hd hP) hP
  have ht := (tdiv_bounds _ d2 ha hd2).1
  rw [chop_of_nonneg _ ht]
  exact chopNonNeg_nonneg _ ht

theorem quoValue_mono (d e d2 : Dec) (hd : 0 ≤ d) (hde : d ≤ e) (hd2 : 0 < d2) :
    quoValue d d2 ≤ quoValue e d2 := by
  unfold quoValue
  have hP : (0 : Int) ≤ precisionReuse := by rw [precisionReuse_eq]; norm_num
  have ha : 0 ≤ d * precisionReuse * precisionReuse := mul_nonneg (mul_nonneg hd hP) hP
  have hae : d * precisionReuse * precisionReuse ≤ e * precisionReuse * precisionReuse :=
    mul_le_mul_of_nonneg_right (mul_le_mul_of_nonneg_right hde hP) hP
  have ht := (tdiv_bounds _ d2 ha hd2).1
  have hte := tdiv_mono _ _ d2 ha hae hd2
  rw [chop_of_nonneg _ ht, chop_of_nonneg _ (le_trans ht hte)]
  exact chopNonNeg_mono _ _ hte

theorem Mul_mono (d e w : Dec) (hd : 0 ≤ d) (hde : d ≤ e) (hw : 0 ≤ w) :
    numeric.Mul d w ≤ numeric.Mul e w := by
  unfold numeric.Mul
  have h1 : 0 ≤ d * w := mul_nonneg hd hw
  have h2 : d * w ≤ e * w := mul_le_mul_of_nonneg_right hde hw
  rw [chop_of_nonneg _ h1, chop_of_nonneg _ (le_trans h1 h2)]
  exact chopNonNeg_mono _ _ h2

end numeric

namespace votepower

open numeric shard

/-- The percentage of a slot with stake `S` out of the total `T` is within one
unit of the last decimal of `S / T * 0.32`. -/
theorem percent_bounds (S T : Dec) (hS : 0 ≤ S) (hT : 0 < T) :
    numeric.Mul (quoValue S T) StakersShare * T - S * StakersShare ≤ T ∧
      -T ≤ numeric.Mul (quoValue S T) StakersShare * T - S * StakersShare := by
  have hW : StakersShare = 320000000000000000 := by decide
  have hq0 := quoValue_nonneg S T hS hT
  rw [hW]
  generalize hq : quoValue S T = q at hq0
  unfold quoValue at hq
  have ha : 0 ≤ S * precisionReuse * precisionReuse := by
    rw [precisionReuse_eq]; positivity
  obtain ⟨ht0, ht1, ht2⟩ := tdiv_bounds _ T ha hT
  rw [chop_of_nonneg _ ht0] at hq
  generalize Int.tdiv (S * precisionReuse * precisionReuse) T = t at hq ht0 ht1 ht2
  rw [precisionReuse_eq] at ht1 ht2
  obtain ⟨hq1, hq2⟩ := chopNonNeg_bounds t
  rw [hq] at hq1 hq2
  unfold numeric.Mul
  rw [chop_of_nonneg _ (by positivity)]
  obtain ⟨hp1, hp2⟩ := chopNonNeg_bounds (q * 320000000000000000)
  generalize chopNonNeg (q * 320000000000000000) = p at hp1 hp2
  have e1 := mul_le_mul_of_nonneg_right hp1 (le_of_lt hT)
  have e2 := mul_le_mul_of_nonneg_right hp2 (le_of_lt hT)
  have e3 := mul_le_mul_of_nonneg_right hq1 (le_of_lt hT)
  have e4 := mul_le_mul_of_nonneg_right hq2 (le_of_lt hT)
  constructor
  · nlinarith
  · nlinarith

/-! ## Bounds, permutations and repeated keys -/

/-- The share of one of `M ≥ 1` internal slots, taken `M` times, is within `M`
units of the last decimal of `0.68`. -/
theorem our_bounds (M : Nat) (hM : 1 ≤ M) :
    (M : Int) * quoValue HarmonysShare (NewDec M) - HarmonysShare ≤ M ∧
      -(M : Int) ≤ (M : Int) * quoValue HarmonysShare (NewDec M) - HarmonysShare := by
  have hH : HarmonysShare = 680000000000000000 := by decide
  have hMpos : (0 : Int) < (M : Int) := by exact_mod_cast hM
  rw [hH]
  unfold quoValue NewDec
  rw [precisionReuse_eq]
  have hb : (0 : Int) < (M : Int) * 1000000000000000000 := by positivity
  obtain ⟨ht0, ht1, ht2⟩ :=
    tdiv_bounds (680000000000000000 * 1000000000000000000 * 1000000000000000000)
      ((M : Int) * 1000000000000000000) (by norm_num) hb
  rw [chop_of_nonneg _ ht0]
  generalize Int.tdiv (680000000000000000 * 1000000000000000000 * 1000000000000000000)
    ((M : Int) * 1000000000000000000) = t at ht0 ht1 ht2
  obtain ⟨hq1, hq2⟩ := chopNonNeg_bounds t
  generalize chopNonNeg t = q at hq1 hq2
  have e3 := mul_le_mul_of_nonneg_right hq1 (le_of_lt hMpos)
  have e4 := mul_le_mul_of_nonneg_right hq2 (le_of_lt hMpos)
  constructor
  · nlinarith
  · nlinarith

theorem externalPercent_bounds (T : Dec) (hT : 0 < T) (l : List Slot)
    (hpos : positiveStakes l = true) :
    externalPercent T l * T - stakeTotal l * StakersShare ≤ (externalCount l : Int) * T ∧
      -((externalCount l : Int) * T) ≤ externalPercent T l * T - stakeTotal l * StakersShare := by
  induction l with
  | nil => simp [externalPercent, stakeTotal, externalCount]
  | cons s rest ih =>
    simp only [positiveStakes, List.all_cons, Bool.and_eq_true] at hpos
    obtain ⟨ih1, ih2⟩ := ih hpos.2
    cases hs : s.TotalStake with
    | none =>
      simp only [externalPercent, stakeTotal, externalCount, List.filterMap_cons, hs,
        List.countP_cons, Option.isSome_none, Bool.false_eq_true, if_false, add_zero] at ih1 ih2 ⊢
      exact ⟨ih1, ih2⟩
    | some stake =>
      have h1 : 0 < stake := by simpa [hs] using hpos.1
      obtain ⟨hp1, hp2⟩ := percent_bounds stake T (le_of_lt h1) hT
      simp only [externalPercent, stakeTotal, externalCount, List.filterMap_cons, hs,
        List.countP_cons, Option.isSome_some, List.map_cons, List.sum_cons] at ih1 ih2 ⊢
      push_cast
      constructor
      · nlinarith
      · nlinarith

theorem externalPercent_total_bounds (staked : SlotList) (hpos : positiveStakes staked = true)
    (hext : hasExternal staked = true) :
    externalPercent (stakeTotal staked) staked - StakersShare ≤ (externalCount staked : Int) ∧
      -(externalCount staked : Int) ≤ externalPercent (stakeTotal staked) staked - StakersShare := by
  have hT := stakeTotal_pos staked hpos hext
  obtain ⟨h1, h2⟩ := externalPercent_bounds (stakeTotal staked) hT staked hpos
  constructor
  · by_contra hc
    push_neg at hc
    nlinarith
  · by_contra hc
    push_neg at hc
    nlinarith

theorem internal_add_external (l : List Slot) :
    internalCount l + externalCount l = l.length := by
  induction l with
  | nil => rfl
  | cons s rest ih =>
    cases hs : s.TotalStake <;>
      simp [internalCount, externalCount, List.countP_cons, hs] at ih ⊢ <;> omega

theorem allocate_percentages (staked : SlotList) (st : loopState)
    (h : allocate staked = some st) :
    st.ourPercentage =
        (internalCount staked : Int) * quoValue HarmonysShare (NewDec (internalCount staked)) ∧
      st.theirPercentage = externalPercent (stakeTotal staked) staked := by
  have hst : st = staked.foldl (bodyValue (NewDec (internalCount staked))) (initState staked) :=
    allocLoop_eq_some _ _ _ _ ((allocate_eq staked).symm.trans h)
  have hour := foldl_ourPercentage (NewDec (internalCount staked)) staked (initState staked)
  have htheir := foldl_theirPercentage (NewDec (internalCount staked)) staked (initState staked)
  rw [← hst] at hour htheir
  rw [initState_roster] at htheir
  simp only [initState, ZeroDec, zero_add] at hour htheir
  exact ⟨hour, htheir⟩

theorem rosterOf_lookup (staked : SlotList) (hkeys : distinctKeys staked) (s : Slot)
    (hs : s ∈ staked) :
    mapLookup (rosterOf staked).Voters s.BlsPublicKey =
      some (voterOf (stakeTotal staked) (NewDec (internalCount staked)) s) := by
  simp only [rosterOf]
  rw [votersOf_eq_map _ _ _ hkeys]
  exact mapLookup_map _ staked hkeys s hs

theorem hasExternal_of_mem (staked : SlotList) (s : Slot) (hs : s ∈ staked) (stake : Dec)
    (hstake : s.TotalStake = some stake) : hasExternal staked = true := by
  simp only [hasExternal, List.any_eq_true]
  exact ⟨s, hs, by simp [hstake]⟩

theorem stake_pos_of_mem (staked : SlotList) (hpos : positiveStakes staked = true) (s : Slot)
    (hs : s ∈ staked) (stake : Dec) (hstake : s.TotalStake = some stake) : 0 < stake := by
  simp only [positiveStakes, List.all_eq_true] at hpos
  simpa [hstake] using hpos s hs

theorem internalCount_pos_of_mem (staked : SlotList) (s : Slot) (hs : s ∈ staked)
    (hnone : s.TotalStake = none) : 1 ≤ internalCount staked := by
  unfold internalCount
  exact List.countP_pos_iff.mpr ⟨s, hs, by simp [hnone]⟩

theorem countLoop_total (staked : SlotList) :
    (countLoop staked NewRoster).RawStakedTotal = stakeTotal staked := by
  simp [countLoop_eq, NewRoster, ZeroDec]

theorem countLoop_count (staked : SlotList) :
    (countLoop staked NewRoster).HmySlotCount = internalCount staked := by
  simp [countLoop_eq, NewRoster]

theorem rosterOf_perm (staked staked2 : SlotList) (hperm : staked.Perm staked2)
    (hkeys : distinctKeys staked) :
    (∀ k, mapLookup (rosterOf staked).Voters k = mapLookup (rosterOf staked2).Voters k) ∧
      (rosterOf staked).Voters.Perm (rosterOf staked2).Voters ∧
      (rosterOf staked).OurVotingPowerTotalPercentage =
        (rosterOf staked2).OurVotingPowerTotalPercentage ∧
      (rosterOf staked).TheirVotingPowerTotalPercentage =
        (rosterOf staked2).TheirVotingPowerTotalPercentage ∧
      (rosterOf staked).RawStakedTotal = (rosterOf staked2).RawStakedTotal ∧
      (rosterOf staked).HmySlotCount = (rosterOf staked2).HmySlotCount := by
  have hkeys2 : distinctKeys staked2 := by
    unfold distinctKeys at hkeys ⊢
    exact (hperm.map fun s => s.BlsPublicKey).nodup_iff.mp hkeys
  have hc := internalCount_perm staked staked2 hperm
  have ht := stakeTotal_perm staked staked2 hperm
  have hx := hasExternal_perm staked staked2 hperm
  refine ⟨?_, ?_, ?_, ?_, ?_, ?_⟩
  · intro k
    simp only [rosterOf]
    rw [votersOf_eq_map _ _ _ hkeys, votersOf_eq_map _ _ _ hkeys2, ← hc, ← ht]
    exact mapLookup_map_perm _ staked staked2 hperm hkeys k
  · simp only [rosterOf]
    rw [votersOf_eq_map _ _ _ hkeys, votersOf_eq_map _ _ _ hkeys2, ← hc, ← ht]
    exact hperm.map _
  · simp only [rosterOf, hc]
  · simp only [rosterOf, hc, hx]
  · simp only [rosterOf, ht]
  · simp only [rosterOf, hc]

theorem allocLoop_none_of_zero_total (ourCount : Dec) (l : List Slot) (st : loopState)
    (h0 : st.roster.RawStakedTotal = 0) (hext : hasExternal l = true) :
    allocLoop ourCount l st = none := by
  induction l generalizing st with
  | nil => simp [hasExternal] at hext
  | cons s rest ih =>
    cases hs : s.TotalStake with
    | some stake => simp [allocLoop, loopBody, hs, Quo, h0]
    | none =>
      unfold allocLoop
      cases hb : loopBody ourCount st s with
      | none => rfl
      | some st1 =>
        simp only []
        apply ih
        · rw [loopBody_eq_some ourCount st st1 s hb, bodyValue_total, h0]
        · simpa [hasExternal, hs] using hext

theorem mapLookup_mapInsert (m : List (BlsPublicKey × stakedVoter)) (k k2 : BlsPublicKey)
    (v : stakedVoter) :
    mapLookup (mapInsert m k v) k2 = if k = k2 then some v else mapLookup m k2 := by
  induction m with
  | nil => simp [mapInsert, mapLookup]
  | cons e rest ih =>
    obtain ⟨k0, v0⟩ := e
    by_cases h0 : k0 = k
    · subst h0
      by_cases h2 : k0 = k2 <;> simp [mapInsert, mapLookup, h2]
    · by_cases h2 : k0 = k2
      · subst h2
        have : ¬ k = k0 := fun h => h0 h.symm
        simp [mapInsert, mapLookup, h0, this]
      · simp [mapInsert, mapLookup, h0, h2, ih]

theorem mapLookup_foldl (f : Slot → stakedVoter) (l : List Slot)
    (m : List (BlsPublicKey × stakedVoter)) (k : BlsPublicKey) :
    mapLookup (l.foldl (fun m s => mapInsert m s.BlsPublicKey (f s)) m) k =
      match lastSlotWith k l with
      | some t => some (f t)
      | none => mapLookup m k := by
  induction l generalizing m with
  | nil => simp [lastSlotWith]
  | cons s rest ih =>
    rw [List.foldl_cons, ih]
    cases hl : lastSlotWith k rest with
    | some t => simp [lastSlotWith, hl]
    | none =>
      by_cases hk : s.BlsPublicKey = k
      · simp [lastSlotWith, hl, hk, mapLookup_mapInsert]
      · simp [lastSlotWith, hl, hk, mapLookup_mapInsert]

theorem lastSlotWith_some (k : BlsPublicKey) (l : List Slot) (t : Slot)
    (h : lastSlotWith k l = some t) : t ∈ l ∧ t.BlsPublicKey = k := by
  induction l with
  | nil => simp [lastSlotWith] at h
  | cons a rest ih =>
    cases hl : lastSlotWith k rest with
    | some u =>
      simp only [lastSlotWith, hl, Option.some.injEq] at h
      subst h
      obtain ⟨hm, hk⟩ := ih hl
      exact ⟨List.mem_cons_of_mem _ hm, hk⟩
    | none =>
      simp only [lastSlotWith, hl] at h
      by_cases hk : a.BlsPublicKey = k
      · simp only [hk, if_true, Option.some.injEq] at h
        subst h
        exact ⟨List.mem_cons_self _ _, hk⟩
      · simp [hk] at h

theorem lastSlotWith_of_mem (l : List Slot) (s : Slot) (hs : s ∈ l) :
    ∃ t, lastSlotWith s.BlsPublicKey l = some t ∧ t ∈ l ∧ t.BlsPublicKey = s.BlsPublicKey := by
  have hsome : (lastSlotWith s.BlsPublicKey l).isSome = true := by
    induction l with
    | nil => simp at hs
    | cons a rest ih =>
      cases hl : lastSlotWith s.BlsPublicKey rest with
      | some u => simp [lastSlotWith, hl]
      | none =>
        rcases List.mem_cons.mp hs with rfl | hmem
        · simp [lastSlotWith, hl]
        · have := ih hmem
          simp [hl] at this
  obtain ⟨t, ht⟩ := Option.isSome_iff_exists.mp hsome
  exact ⟨t, ht, lastSlotWith_some _ l t ht⟩

theorem mapInsert_keys (m : List (BlsPublicKey × stakedVoter)) (k : BlsPublicKey)
    (v : stakedVoter) :
    (mapInsert m k v).map Prod.fst =
      if k ∈ m.map Prod.fst then m.map Prod.fst else m.map Prod.fst ++ [k] := by
  induction m with
  | nil => simp [mapInsert]
  | cons e rest ih =>
    obtain ⟨k0, v0⟩ := e
    by_cases h0 : k0 = k
    · subst h0
      simp [mapInsert]
    · have hne : ¬ k = k0 := fun h => h0 h.symm
      simp only [mapInsert, h0, if_false, List.map_cons, ih, List.mem_cons, hne, false_or]
      split_ifs <;> simp

theorem foldl_keys_nodup (f : Slot → stakedVoter) (l : List Slot)
    (m : List (BlsPublicKey × stakedVoter)) (hm : (m.map Prod.fst).Nodup) :
    ((l.foldl (fun m s => mapInsert m s.BlsPublicKey (f s)) m).map Prod.fst).Nodup := by
  induction l generalizing m with
  | nil => simpa using hm
  | cons s rest ih =>
    rw [List.foldl_cons]
    apply ih
    rw [mapInsert_keys]
    split_ifs with hk
    · exact hm
    · rw [List.nodup_append]
      refine ⟨hm, by simp, ?_⟩
      intro a ha hb
      simp only [List.mem_singleton] at hb
      subst hb
      exact hk ha

theorem foldl_keys_subset (f : Slot → stakedVoter) (l : List Slot)
    (m : List (BlsPublicKey × stakedVoter)) (k : BlsPublicKey)
    (hk : k ∈ (l.foldl (fun m s => mapInsert m s.BlsPublicKey (f s)) m).map Prod.fst) :
    k ∈ m.map Prod.fst ∨ k ∈ l.map fun s => s.BlsPublicKey := by
  induction l generalizing m with
  | nil => left; simpa using hk
  | cons s rest ih =>
    rw [List.foldl_cons] at hk
    rcases ih _ hk with h | h
    · rw [mapInsert_keys] at h
      split_ifs at h with hin
      · left; exact h
      · rcases List.mem_append.mp h with h1 | h1
        · left; exact h1
        · right
          simp only [List.mem_singleton] at h1
          simp [h1]
    · right
      simp only [List.map_cons, List.mem_cons]
      right; exact h

/-- When two slots share a key the voter map has fewer entries than slots. -/
theorem votersOf_length_lt (total ourCount : Dec) (l : List Slot) (hdup : ¬ distinctKeys l) :
    (votersOf total ourCount l).length < l.length := by
  have hnd : ((votersOf total ourCount l).map Prod.fst).Nodup :=
    foldl_keys_nodup _ l [] (by simp)
  have hsub : (votersOf total ourCount l).map Prod.fst ⊆ l.map fun s => s.BlsPublicKey := by
    intro k hk
    rcases foldl_keys_subset _ l [] k hk with h | h
    · simp at h
    · exact h
  have hsp := List.subperm_of_subset hnd hsub
  by_contra hlt
  push_neg at hlt
  have hperm := hsp.perm_of_length_le (by simpa using hlt)
  exact hdup (hperm.nodup_iff.mp hnd)

/-! ## Properties of the roster -/

/-- C1. Sum-to-one: for a slot list with an external slot whose stakes are all
positive, `Compute` returns a roster, and `OurVotingPowerTotalPercentage +
TheirVotingPowerTotalPercentage` is exactly one. -/
theorem sum_to_one (staked : SlotList) (hext : hasExternal staked = true)
    (hpos : positiveStakes staked = true) :
    ∃ r, Compute staked = Outcome.roster r ∧
      numeric.Add r.OurVotingPowerTotalPercentage r.TheirVotingPowerTotalPercentage = OneDec :=
  ⟨rosterOf staked, Compute_of_positive staked hpos, rosterOf_sum staked hext⟩

/-- Witness of `sum_to_one` on one internal slot and three slots of stake 1. -/
theorem sum_to_one_witness :
    hasExternal roundingSlots = true ∧ positiveStakes roundingSlots = true ∧
      ∃ r, Compute roundingSlots = Outcome.roster r ∧
        numeric.Add r.OurVotingPowerTotalPercentage r.TheirVotingPowerTotalPercentage = OneDec :=
  ⟨by decide, by decide, sum_to_one roundingSlots (by decide) (by decide)⟩

/-- C2. On one internal slot and three slots of stake 1 the keys are distinct
and the remainder before the correction is `-10^-18`, so the last external
voter (key 4) should end with `0.106666666666666667 - 10^-18`; the roster
returned still holds `0.106666666666666667` for it, and the three external
percentages in the roster sum to `0.320000000000000001` instead of `0.32`,
while `TheirVotingPowerTotalPercentage` is the corrected `0.32`. -/
theorem correction_not_in_roster :
    distinctKeys roundingSlots ∧
      lastExternalKey roundingSlots = some 4 ∧
      (allocate roundingSlots).map diffOf = some (-1) ∧
      Quo (NewDec 1) (NewDec 3) = some (decOfParts 0 333333333333333333) ∧
      numeric.Add (numeric.Mul (decOfParts 0 333333333333333333) StakersShare) (-1) =
        decOfParts 0 106666666666666666 ∧
      percentAt (Compute roundingSlots) 4 = some (decOfParts 0 106666666666666667) ∧
      percentAt (Compute roundingSlots) 3 = some (decOfParts 0 106666666666666667) ∧
      percentAt (Compute roundingSlots) 2 = some (decOfParts 0 106666666666666667) ∧
      (∃ r, Compute roundingSlots = Outcome.roster r ∧
        r.TheirVotingPowerTotalPercentage = decOfParts 0 320000000000000000) := by
  refine ⟨by decide, by decide, by decide, by decide, by decide, by decide, by decide,
    by decide, ?_⟩
  exact ⟨_, Compute_of_positive roundingSlots (by decide), by decide⟩

/-- C3, as stated, fails: for the single internal slot `Compute` returns a
roster whose only voter holds `0.68`, so the percentages do not sum to one. -/
theorem voters_sum_counterexample :
    distinctKeys [internalSlot 1] ∧
      ∃ r, Compute [internalSlot 1] = Outcome.roster r ∧
        percentSum r.Voters = decOfParts 0 680000000000000000 ∧
        percentSum r.Voters ≠ OneDec := by
  refine ⟨by decide, _, Compute_of_positive [internalSlot 1] (by decide), by decide, by decide⟩

/-- C3, amended. For a slot list with distinct keys whose remainder before the
correction is zero, `Compute` returns a roster and the `EffectivePercent` of
its voters sum to exactly one. -/
theorem voters_sum_to_one (staked : SlotList) (hkeys : distinctKeys staked)
    (hdiff : (allocate staked).map diffOf = some ZeroDec) :
    ∃ r, Compute staked = Outcome.roster r ∧ percentSum r.Voters = OneDec := by
  cases ha : allocate staked with
  | none => simp [ha] at hdiff
  | some st =>
    have hst : st = staked.foldl (bodyValue (NewDec (internalCount staked))) (initState staked) :=
      allocLoop_eq_some _ _ _ _ ((allocate_eq staked).symm.trans ha)
    have hour := foldl_ourPercentage (NewDec (internalCount staked)) staked (initState staked)
    have htheir := foldl_theirPercentage (NewDec (internalCount staked)) staked (initState staked)
    rw [← hst] at hour htheir
    rw [initState_roster] at htheir
    simp only [initState, ZeroDec, zero_add] at hour htheir
    simp only [ha, Option.map_some', Option.some.injEq, diffOf, numeric.Sub, numeric.Add,
      ZeroDec] at hdiff
    refine ⟨rosterOf staked, ?_, ?_⟩
    · unfold Compute
      rw [ha]
      simp only []
      rw [hst]
      exact finish_correct_foldl staked
    · simp only [rosterOf]
      rw [votersOf_eq_map _ _ _ hkeys, percentSum_map, ← hour, ← htheir]
      linarith

/-- Witness of `voters_sum_to_one` on two internal slots and stakes 60, 40. -/
theorem voters_sum_to_one_witness :
    distinctKeys workedSlots ∧ (allocate workedSlots).map diffOf = some ZeroDec ∧
      ∃ r, Compute workedSlots = Outcome.roster r ∧ percentSum r.Voters = OneDec :=
  ⟨by decide, by decide, voters_sum_to_one workedSlots (by decide) (by decide)⟩

/-- C4, as stated, fails: the list of one internal slot is not empty, has no
external slot, `HarmonysShare` is not one, and `Compute` returns a roster, not
`ErrVotingPowerNotEqualOne`. -/
theorem internal_only_counterexample :
    [internalSlot 1] ≠ [] ∧ hasExternal [internalSlot 1] = false ∧
      HarmonysShare = decOfParts 0 680000000000000000 ∧ HarmonysShare ≠ OneDec ∧
      Compute [internalSlot 1] ≠ Outcome.ErrVotingPowerNotEqualOne ∧
      ∃ r, Compute [internalSlot 1] = Outcome.roster r := by
  refine ⟨by decide, by decide, by decide, by decide, by decide, ?_⟩
  exact ⟨_, Compute_of_positive [internalSlot 1] (by decide)⟩

/-- C4, amended. For a non-empty list of `M` internal slots and no external
slot, `Compute` returns a roster with a nil error: the final check is skipped
when no external voter exists. The roster has `HmySlotCount = M`,
`TheirVotingPowerTotalPercentage = 0`, and `OurVotingPowerTotalPercentage` is
`M` times `HarmonysShare.Quo(M)`. -/
theorem internal_only_returns_roster (staked : SlotList) (hne : staked ≠ [])
    (hint : hasExternal staked = false) :
    ∃ r q, Compute staked = Outcome.roster r ∧
      r.HmySlotCount = staked.length ∧
      Quo HarmonysShare (NewDec r.HmySlotCount) = some q ∧
      r.OurVotingPowerTotalPercentage = r.HmySlotCount * q ∧
      r.TheirVotingPowerTotalPercentage = ZeroDec := by
  have hlen : internalCount staked = staked.length := by
    unfold internalCount
    rw [List.countP_eq_length]
    intro s hs
    simp only [hasExternal, List.any_eq_false] at hint
    have := hint s hs
    cases h : s.TotalStake with
    | none => rfl
    | some stake => simp [h] at this
  have hpos : 0 < staked.length := List.length_pos.mpr hne
  have hq : NewDec ((staked.length : Nat) : Int) ≠ 0 := NewDec_ne_zero _ (by omega)
  refine ⟨rosterOf staked, quoValue HarmonysShare (NewDec (staked.length : Int)),
    Compute_eq staked (by simp [hint]), ?_, ?_, ?_, ?_⟩
  · simp [rosterOf, hlen]
  · simp [rosterOf, hlen, Quo, hq]
  · simp [rosterOf, hlen]
  · simp [rosterOf, hint]

/-- Witness of `internal_only_returns_roster` on three internal slots. -/
theorem internal_only_returns_roster_witness :
    [internalSlot 1, internalSlot 2, internalSlot 3] ≠ [] ∧
      hasExternal [internalSlot 1, internalSlot 2, internalSlot 3] = false ∧
      ∃ r q, Compute [internalSlot 1, internalSlot 2, internalSlot 3] = Outcome.roster r ∧
        r.HmySlotCount = [internalSlot 1, internalSlot 2, internalSlot 3].length ∧
        Quo HarmonysShare (NewDec r.HmySlotCount) = some q ∧
        r.OurVotingPowerTotalPercentage = r.HmySlotCount * q ∧
        r.TheirVotingPowerTotalPercentage = ZeroDec :=
  ⟨by decide, by decide,
    internal_only_returns_roster [internalSlot 1, internalSlot 2, internalSlot 3]
      (by decide) (by decide)⟩

/-- C5, as stated, fails: on the empty list `Compute` does not return
`ErrVotingPowerNotEqualOne`. -/
theorem empty_input_counterexample :
    ¬ (Compute [] = Outcome.ErrVotingPowerNotEqualOne) := by
  decide

/-- C5, amended. On the empty list `ourPercentage` and `theirPercentage` are
both zero, the final check is skipped, and `Compute` returns the empty roster
with a nil error, both totals being zero. -/
theorem empty_input_returns_roster :
    (allocate []).map (fun st => (st.ourPercentage, st.theirPercentage)) =
        some (ZeroDec, ZeroDec) ∧
      Compute [] = Outcome.roster NewRoster ∧
      NewRoster.OurVotingPowerTotalPercentage = ZeroDec ∧
      NewRoster.TheirVotingPowerTotalPercentage = ZeroDec := by
  decide

/-- C6. Internal equal split: for a slot list with distinct keys, positive
stakes and `M ≥ 1` internal slots, `Compute` returns a roster in which the
voter of every internal slot, and every voter marked as a Harmony node, has
`EffectivePercent` exactly `HarmonysShare.Quo(M)`, a value fixed by `M`. -/
theorem internal_equal_split (staked : SlotList) (hkeys : distinctKeys staked)
    (hpos : positiveStakes staked = true) (hM : 1 ≤ internalCount staked) :
    ∃ r q, Compute staked = Outcome.roster r ∧
      Quo HarmonysShare (NewDec (internalCount staked)) = some q ∧
      (∀ s ∈ staked, s.TotalStake = none →
        ∃ v, mapLookup r.Voters s.BlsPublicKey = some v ∧ v.IsHarmonyNode = true ∧
          v.EffectivePercent = q) ∧
      (∀ k v, mapLookup r.Voters k = some v → v.IsHarmonyNode = true →
        v.EffectivePercent = q) := by
  have hq : NewDec ((internalCount staked : Nat) : Int) ≠ 0 := NewDec_ne_zero _ (by omega)
  refine ⟨rosterOf staked, quoValue HarmonysShare (NewDec (internalCount staked)),
    Compute_of_positive staked hpos, by simp [Quo, hq], ?_, ?_⟩
  · intro s hs hnone
    refine ⟨voterOf (stakeTotal staked) (NewDec (internalCount staked)) s, ?_, ?_, ?_⟩
    · simp only [rosterOf]
      rw [votersOf_eq_map _ _ _ hkeys]
      exact mapLookup_map _ staked hkeys s hs
    · simp [voterOf, hnone]
    · simp [voterOf, hnone]
  · intro k v hlook hnode
    simp only [rosterOf] at hlook
    rw [votersOf_eq_map _ _ _ hkeys] at hlook
    obtain ⟨s, _, _, hv⟩ := mapLookup_map_some _ staked k v hlook
    subst hv
    cases hs : s.TotalStake with
    | none => simp [voterOf, hs]
    | some stake => simp [voterOf, hs] at hnode

/-- Witness of `internal_equal_split` on two internal slots and stakes 60, 40. -/
theorem internal_equal_split_witness :
    distinctKeys workedSlots ∧ positiveStakes workedSlots = true ∧
      1 ≤ internalCount workedSlots ∧
      ∃ r q, Compute workedSlots = Outcome.roster r ∧
        Quo HarmonysShare (NewDec (internalCount workedSlots)) = some q ∧
        (∀ s ∈ workedSlots, s.TotalStake = none →
          ∃ v, mapLookup r.Voters s.BlsPublicKey = some v ∧ v.IsHarmonyNode = true ∧
            v.EffectivePercent = q) ∧
        (∀ k v, mapLookup r.Voters k = some v → v.IsHarmonyNode = true →
          v.EffectivePercent = q) :=
  ⟨by decide, by decide, by decide,
    internal_equal_split workedSlots (by decide) (by decide) (by decide)⟩

/-- C7. External proportional share: for a slot list with distinct keys and
positive stakes, `Compute` returns a roster in which the voter of every
external slot other than the last external slot in input order has
`EffectivePercent` exactly `stake.Quo(RawStakedTotal).Mul(StakersShare)`. -/
theorem external_proportional_share (staked : SlotList) (hkeys : distinctKeys staked)
    (hpos : positiveStakes staked = true) :
    ∃ r, Compute staked = Outcome.roster r ∧
      ∀ s ∈ staked, ∀ stake, s.TotalStake = some stake →
        some s.BlsPublicKey ≠ lastExternalKey staked →
        ∃ q v, Quo stake r.RawStakedTotal = some q ∧
          mapLookup r.Voters s.BlsPublicKey = some v ∧
          v.EffectivePercent = numeric.Mul q StakersShare := by
  refine ⟨rosterOf staked, Compute_of_positive staked hpos, ?_⟩
  intro s hs stake hstake _
  have hext : hasExternal staked = true := by
    simp only [hasExternal, List.any_eq_true]
    exact ⟨s, hs, by simp [hstake]⟩
  have htot : stakeTotal staked ≠ 0 := ne_of_gt (stakeTotal_pos staked hpos hext)
  refine ⟨quoValue stake (stakeTotal staked),
    voterOf (stakeTotal staked) (NewDec (internalCount staked)) s, ?_, ?_, ?_⟩
  · simp [rosterOf, Quo, htot]
  · simp only [rosterOf]
    rw [votersOf_eq_map _ _ _ hkeys]
    exact mapLookup_map _ staked hkeys s hs
  · simp [voterOf, hstake]

/-- Witness of `external_proportional_share` on two internal slots and stakes
60, 40. -/
theorem external_proportional_share_witness :
    distinctKeys workedSlots ∧ positiveStakes workedSlots = true ∧
      ∃ r, Compute workedSlots = Outcome.roster r ∧
        ∀ s ∈ workedSlots, ∀ stake, s.TotalStake = some stake →
          some s.BlsPublicKey ≠ lastExternalKey workedSlots →
          ∃ q v, Quo stake r.RawStakedTotal = some q ∧
            mapLookup r.Voters s.BlsPublicKey = some v ∧
            v.EffectivePercent = numeric.Mul q StakersShare :=
  ⟨by decide, by decide, external_proportional_share workedSlots (by decide) (by decide)⟩

/-- C8. Worked example: on two internal slots followed by stakes 60 and 40
`Compute` returns a roster with `RawStakedTotal = 100`, `HmySlotCount = 2`,
internal percentages `0.34`, external percentages `0.192` and `0.128`; the
remainder before the correction is zero and the two totals sum to one. -/
theorem worked_example :
    distinctKeys workedSlots ∧
      (allocate workedSlots).map diffOf = some ZeroDec ∧
      percentAt (Compute workedSlots) 1 = some (decOfParts 0 340000000000000000) ∧
      percentAt (Compute workedSlots) 2 = some (decOfParts 0 340000000000000000) ∧
      percentAt (Compute workedSlots) 3 = some (decOfParts 0 192000000000000000) ∧
      percentAt (Compute workedSlots) 4 = some (decOfParts 0 128000000000000000) ∧
      ∃ r, Compute workedSlots = Outcome.roster r ∧
        r.RawStakedTotal = NewDec 100 ∧ r.HmySlotCount = 2 ∧
        r.OurVotingPowerTotalPercentage = HarmonysShare ∧
        r.TheirVotingPowerTotalPercentage = StakersShare ∧
        numeric.Add r.OurVotingPowerTotalPercentage r.TheirVotingPowerTotalPercentage =
          OneDec := by
  refine ⟨by decide, by decide, by decide, by decide, by decide, by decide, ?_⟩
  exact ⟨_, Compute_of_positive workedSlots (by decide), by decide, by decide, by decide,
    by decide, by decide⟩

/-- C9. Reordering: for a slot list with distinct keys, positive stakes and an
external slot, and any permutation of it, `Compute` returns a roster on both,
the two totals sum to exactly one in both, and every key that is not the last
external slot of either ordering has the same voter, hence the same
`EffectivePercent`, in both rosters. -/
theorem reorder_keeps_sum_and_percentages (staked staked2 : SlotList)
    (hperm : staked.Perm staked2) (hkeys : distinctKeys staked)
    (hpos : positiveStakes staked = true) (hext : hasExternal staked = true) :
    ∃ r r2, Compute staked = Outcome.roster r ∧ Compute staked2 = Outcome.roster r2 ∧
      numeric.Add r.OurVotingPowerTotalPercentage r.TheirVotingPowerTotalPercentage = OneDec ∧
      numeric.Add r2.OurVotingPowerTotalPercentage r2.TheirVotingPowerTotalPercentage =
        OneDec ∧
      ∀ k, some k ≠ lastExternalKey staked → some k ≠ lastExternalKey staked2 →
        mapLookup r.Voters k = mapLookup r2.Voters k ∧
        percentAt (Compute staked) k = percentAt (Compute staked2) k := by
  have hpos2 : positiveStakes staked2 = true := by
    rw [← positiveStakes_perm staked staked2 hperm]; exact hpos
  have hext2 : hasExternal staked2 = true := by
    rw [← hasExternal_perm staked staked2 hperm]; exact hext
  have hkeys2 : distinctKeys staked2 := by
    unfold distinctKeys at hkeys ⊢
    exact (hperm.map fun s => s.BlsPublicKey).nodup_iff.mp hkeys
  have hlook : ∀ k, mapLookup (rosterOf staked).Voters k = mapLookup (rosterOf staked2).Voters k := by
    intro k
    simp only [rosterOf]
    rw [votersOf_eq_map _ _ _ hkeys, votersOf_eq_map _ _ _ hkeys2,
      ← internalCount_perm staked staked2 hperm, ← stakeTotal_perm staked staked2 hperm]
    exact mapLookup_map_perm _ staked staked2 hperm hkeys k
  refine ⟨rosterOf staked, rosterOf staked2, Compute_of_positive staked hpos,
    Compute_of_positive staked2 hpos2, rosterOf_sum staked hext, rosterOf_sum staked2 hext2, ?_⟩
  intro k _ _
  refine ⟨hlook k, ?_⟩
  rw [Compute_of_positive staked hpos, Compute_of_positive staked2 hpos2]
  simp only [percentAt, hlook k]

/-- Witness of `reorder_keeps_sum_and_percentages` on the worked example and a
reordering of it. -/
theorem reorder_keeps_sum_and_percentages_witness :
    workedSlots.Perm workedSlotsReordered ∧ distinctKeys workedSlots ∧
      positiveStakes workedSlots = true ∧ hasExternal workedSlots = true ∧
      ∃ r r2, Compute workedSlots = Outcome.roster r ∧
        Compute workedSlotsReordered = Outcome.roster r2 ∧
        numeric.Add r.OurVotingPowerTotalPercentage r.TheirVotingPowerTotalPercentage =
          OneDec ∧
        numeric.Add r2.OurVotingPowerTotalPercentage r2.TheirVotingPowerTotalPercentage =
          OneDec ∧
        ∀ k, some k ≠ lastExternalKey workedSlots →
          some k ≠ lastExternalKey workedSlotsReordered →
          mapLookup r.Voters k = mapLookup r2.Voters k ∧
          percentAt (Compute workedSlots) k = percentAt (Compute workedSlotsReordered) k :=
  ⟨by decide, by decide, by decide, by decide,
    reorder_keeps_sum_and_percentages workedSlots workedSlotsReordered (by decide) (by decide)
      (by decide) (by decide)⟩

/-- C10. Aggregates: in a roster returned by `Compute`, `HmySlotCount` is the
number of slots without a stake and `RawStakedTotal` is the sum of the stakes
of the other slots, both zero for the empty list; with distinct keys
`RawStakedTotal` is also the sum of `RawStake` over the external voters of
`roster.Voters`. -/
theorem aggregates (staked : SlotList) (r : Roster)
    (h : Compute staked = Outcome.roster r) :
    r.HmySlotCount = (staked.filter fun s => s.TotalStake.isNone).length ∧
      r.RawStakedTotal =
        (staked.filterMap fun s => s.TotalStake).foldl numeric.Add ZeroDec ∧
      (staked = [] → r.HmySlotCount = 0 ∧ r.RawStakedTotal = ZeroDec) ∧
      (distinctKeys staked → externalRawStake r.Voters = r.RawStakedTotal) := by
  have hr := Compute_roster_eq staked r h
  subst hr
  refine ⟨?_, ?_, ?_, ?_⟩
  · simp [rosterOf, internalCount, List.countP_eq_length_filter]
  · simp only [rosterOf, stakeTotal, List.sum_eq_foldl]
    rfl
  · intro he
    subst he
    decide
  · intro hkeys
    simp only [rosterOf]
    rw [votersOf_eq_map _ _ _ hkeys]
    exact externalRawStake_map _ _ staked

/-- Witness of `aggregates` on two internal slots and stakes 60, 40. -/
theorem aggregates_witness :
    Compute workedSlots = Outcome.roster (rosterOf workedSlots) ∧
      (rosterOf workedSlots).HmySlotCount =
        (workedSlots.filter fun s => s.TotalStake.isNone).length ∧
      (rosterOf workedSlots).RawStakedTotal =
        (workedSlots.filterMap fun s => s.TotalStake).foldl numeric.Add ZeroDec ∧
      (workedSlots = [] →
        (rosterOf workedSlots).HmySlotCount = 0 ∧
          (rosterOf workedSlots).RawStakedTotal = ZeroDec) ∧
      (distinctKeys workedSlots →
        externalRawStake (rosterOf workedSlots).Voters = (rosterOf workedSlots).RawStakedTotal) :=
  ⟨by decide, aggregates workedSlots (rosterOf workedSlots) (by decide)⟩

/-- C11. One voter record per slot: in a roster returned by `Compute` for a
slot list with distinct keys, the keys of `roster.Voters` are the keys of the
slots, one entry each, and the entry of a slot is active, is a Harmony node
exactly when the slot has no stake, and carries the account, the key and the
stake of the slot (zero for an internal slot). -/
theorem one_voter_per_slot (staked : SlotList) (r : Roster) (hkeys : distinctKeys staked)
    (h : Compute staked = Outcome.roster r) :
    r.Voters.length = staked.length ∧
      (r.Voters.map Prod.fst = staked.map fun s => s.BlsPublicKey) ∧
      ∀ s ∈ staked, ∃ v, mapLookup r.Voters s.BlsPublicKey = some v ∧
        v.IsActive = true ∧ (v.IsHarmonyNode = true ↔ s.TotalStake = none) ∧
        v.EarningAccount = s.EcdsaAddress ∧ v.Identity = s.BlsPublicKey ∧
        v.RawStake = s.TotalStake.getD ZeroDec := by
  have hr := Compute_roster_eq staked r h
  subst hr
  have hv : (rosterOf staked).Voters =
      staked.map fun s =>
        (s.BlsPublicKey, voterOf (stakeTotal staked) (NewDec (internalCount staked)) s) := by
    simp only [rosterOf]
    exact votersOf_eq_map _ _ _ hkeys
  refine ⟨by simp [hv], by simp [hv], ?_⟩
  intro s hs
  refine ⟨_, rosterOf_lookup staked hkeys s hs, ?_⟩
  cases hst : s.TotalStake <;> simp [voterOf, hst, numeric.Add, ZeroDec]

/-- Witness of `one_voter_per_slot` on two internal slots and stakes 60, 40. -/
theorem one_voter_per_slot_witness :
    distinctKeys workedSlots ∧
      Compute workedSlots = Outcome.roster (rosterOf workedSlots) ∧
      (rosterOf workedSlots).Voters.length = workedSlots.length ∧
      ((rosterOf workedSlots).Voters.map Prod.fst = workedSlots.map fun s => s.BlsPublicKey) ∧
      ∀ s ∈ workedSlots, ∃ v, mapLookup (rosterOf workedSlots).Voters s.BlsPublicKey = some v ∧
        v.IsActive = true ∧ (v.IsHarmonyNode = true ↔ s.TotalStake = none) ∧
        v.EarningAccount = s.EcdsaAddress ∧ v.Identity = s.BlsPublicKey ∧
        v.RawStake = s.TotalStake.getD ZeroDec :=
  ⟨by decide, by decide,
    one_voter_per_slot workedSlots (rosterOf workedSlots) (by decide) (by decide)⟩

/-- C12, as stated, fails: two slots share the key 1, and `Compute` returns a
roster; its single entry is the record of the second slot, with `0.128`. -/
theorem duplicate_keys_counterexample :
    ¬ distinctKeys duplicateSlots ∧
      percentAt (Compute duplicateSlots) 1 = some (decOfParts 0 128000000000000000) ∧
      ∃ r, Compute duplicateSlots = Outcome.roster r ∧ r.Voters.length = 1 ∧
        r.RawStakedTotal = NewDec 100 := by
  refine ⟨by decide, by decide, ?_⟩
  exact ⟨_, Compute_of_positive duplicateSlots (by decide), by decide, by decide⟩

/-- C12, amended. `Compute` does not check the identities: for a slot list
with positive stakes in which two slots share a key it returns a roster with
a nil error. The entry of a key is the record built for the last slot in
input order that has it, so `roster.Voters` has fewer entries than there are
slots, while every slot counts in `HmySlotCount` or `RawStakedTotal`. -/
theorem duplicate_keys_overwrite (staked : SlotList) (hpos : positiveStakes staked = true)
    (hdup : ¬ distinctKeys staked) :
    ∃ r, Compute staked = Outcome.roster r ∧
      r.Voters.length < staked.length ∧
      r.HmySlotCount = internalCount staked ∧ r.RawStakedTotal = stakeTotal staked ∧
      ∀ s ∈ staked, ∃ t, lastSlotWith s.BlsPublicKey staked = some t ∧
        t.BlsPublicKey = s.BlsPublicKey ∧
        mapLookup r.Voters s.BlsPublicKey =
          some (voterOf r.RawStakedTotal (NewDec r.HmySlotCount) t) := by
  refine ⟨rosterOf staked, Compute_of_positive staked hpos, ?_, rfl, rfl, ?_⟩
  · simp only [rosterOf]
    exact votersOf_length_lt _ _ staked hdup
  · intro s hs
    obtain ⟨t, ht, _, htk⟩ := lastSlotWith_of_mem staked s hs
    refine ⟨t, ht, htk, ?_⟩
    simp only [rosterOf, votersOf]
    rw [mapLookup_foldl, ht]

/-- Witness of `duplicate_keys_overwrite` on two slots with the key 1. -/
theorem duplicate_keys_overwrite_witness :
    positiveStakes duplicateSlots = true ∧ ¬ distinctKeys duplicateSlots ∧
      ∃ r, Compute duplicateSlots = Outcome.roster r ∧
        r.Voters.length < duplicateSlots.length ∧
        r.HmySlotCount = internalCount duplicateSlots ∧
        r.RawStakedTotal = stakeTotal duplicateSlots ∧
        ∀ s ∈ duplicateSlots, ∃ t, lastSlotWith s.BlsPublicKey duplicateSlots = some t ∧
          t.BlsPublicKey = s.BlsPublicKey ∧
          mapLookup r.Voters s.BlsPublicKey =
            some (voterOf r.RawStakedTotal (NewDec r.HmySlotCount) t) :=
  ⟨by decide, by decide, duplicate_keys_overwrite duplicateSlots (by decide) (by decide)⟩

/-- C13, as stated, fails: on a single slot of stake zero `Compute` divides by
the zero total and returns nothing, and on stakes 3 and -1 it returns a
roster, in which the second voter has `-0.16`. -/
theorem stake_sign_counterexample :
    positiveStakes [externalSlot 1 0] = false ∧
      Quo (NewDec 0) (countLoop [externalSlot 1 0] NewRoster).RawStakedTotal = none ∧
      Compute [externalSlot 1 0] = Outcome.divisionByZero ∧
      positiveStakes negativeStakeSlots = false ∧
      percentAt (Compute negativeStakeSlots) 2 = some (-decOfParts 0 160000000000000000) ∧
      ∃ r, Compute negativeStakeSlots = Outcome.roster r := by
  refine ⟨by decide, by decide, by decide, by decide, by decide, ?_⟩
  exact ⟨_, Compute_eq negativeStakeSlots (by decide)⟩

/-- C13, amended. `Compute` does not check the sign of a stake and has no
malformed-input error. For a slot list with an external slot: when
`RawStakedTotal` is zero the division by it stops `Compute` and nothing is
returned; otherwise `Compute` returns a roster with a nil error whose two
totals sum to one, also when a stake is zero or negative. -/
theorem stake_sign_unchecked (staked : SlotList) (hext : hasExternal staked = true) :
    ((countLoop staked NewRoster).RawStakedTotal = 0 →
        Compute staked = Outcome.divisionByZero) ∧
      ((countLoop staked NewRoster).RawStakedTotal ≠ 0 →
        ∃ r, Compute staked = Outcome.roster r ∧
          numeric.Add r.OurVotingPowerTotalPercentage r.TheirVotingPowerTotalPercentage =
            OneDec) := by
  constructor
  · intro h0
    unfold Compute
    rw [allocate_eq, allocLoop_none_of_zero_total _ staked (initState staked) h0 hext]
  · intro hne
    rw [countLoop_total] at hne
    exact ⟨rosterOf staked, Compute_eq staked (fun _ => hne), rosterOf_sum staked hext⟩

/-- Witness of `stake_sign_unchecked` on stakes 3 and -1. -/
theorem stake_sign_unchecked_witness :
    hasExternal negativeStakeSlots = true ∧
      ((countLoop negativeStakeSlots NewRoster).RawStakedTotal = 0 →
        Compute negativeStakeSlots = Outcome.divisionByZero) ∧
      ((countLoop negativeStakeSlots NewRoster).RawStakedTotal ≠ 0 →
        ∃ r, Compute negativeStakeSlots = Outcome.roster r ∧
          numeric.Add r.OurVotingPowerTotalPercentage r.TheirVotingPowerTotalPercentage =
            OneDec) :=
  ⟨by decide, stake_sign_unchecked negativeStakeSlots (by decide)⟩

/-- C14, as stated, fails: among slots of stake 1, 2 and 3 the first two are
not the last external slot, their percentages are `0.053333333333333333` and
`0.106666666666666667`, and `percentage(S1) * S2` differs from
`percentage(S2) * S1`. -/
theorem proportionality_counterexample :
    distinctKeys unevenSlots ∧ lastExternalKey unevenSlots = some 3 ∧
      percentAt (Compute unevenSlots) 1 = some (decOfParts 0 53333333333333333) ∧
      percentAt (Compute unevenSlots) 2 = some (decOfParts 0 106666666666666667) ∧
      decOfParts 0 53333333333333333 * NewDec 2 ≠
        decOfParts 0 106666666666666667 * NewDec 1 := by
  decide

/-- C14, amended. For a slot list with distinct keys and positive stakes and
two external slots with stakes `S1` and `S2`, neither of them the last
external slot in input order, `percentage(S1) * S2` and `percentage(S2) * S1`
differ by at most `(S1 + S2) * 10^-18`; the integers compared here are the
values scaled by `10^18`. -/
theorem proportionality_up_to_rounding (staked : SlotList) (hkeys : distinctKeys staked)
    (hpos : positiveStakes staked = true) :
    ∃ r, Compute staked = Outcome.roster r ∧
      ∀ s1 ∈ staked, ∀ s2 ∈ staked, ∀ S1 S2 : Dec,
        s1.TotalStake = some S1 → s2.TotalStake = some S2 →
        some s1.BlsPublicKey ≠ lastExternalKey staked →
        some s2.BlsPublicKey ≠ lastExternalKey staked →
        ∃ v1 v2, mapLookup r.Voters s1.BlsPublicKey = some v1 ∧
          mapLookup r.Voters s2.BlsPublicKey = some v2 ∧
          |v1.EffectivePercent * S2 - v2.EffectivePercent * S1| ≤ S1 + S2 := by
  refine ⟨rosterOf staked, Compute_of_positive staked hpos, ?_⟩
  intro s1 hs1 s2 hs2 S1 S2 h1 h2 _ _
  have hS1 := stake_pos_of_mem staked hpos s1 hs1 S1 h1
  have hS2 := stake_pos_of_mem staked hpos s2 hs2 S2 h2
  have hT := stakeTotal_pos staked hpos (hasExternal_of_mem staked s1 hs1 S1 h1)
  refine ⟨_, _, rosterOf_lookup staked hkeys s1 hs1, rosterOf_lookup staked hkeys s2 hs2, ?_⟩
  simp only [voterOf, h1, h2]
  obtain ⟨a1, a2⟩ := percent_bounds S1 (stakeTotal staked) (le_of_lt hS1) hT
  obtain ⟨b1, b2⟩ := percent_bounds S2 (stakeTotal staked) (le_of_lt hS2) hT
  generalize numeric.Mul (quoValue S1 (stakeTotal staked)) StakersShare = p1 at a1 a2
  generalize numeric.Mul (quoValue S2 (stakeTotal staked)) StakersShare = p2 at b1 b2
  generalize stakeTotal staked = T at hT a1 a2 b1 b2
  have m1 := mul_le_mul_of_nonneg_left a1 (le_of_lt hS2)
  have m2 := mul_le_mul_of_nonneg_left a2 (le_of_lt hS2)
  have m3 := mul_le_mul_of_nonneg_left b1 (le_of_lt hS1)
  have m4 := mul_le_mul_of_nonneg_left b2 (le_of_lt hS1)
  rw [abs_le]
  constructor
  · have : (-(S1 + S2)) * T ≤ (p1 * S2 - p2 * S1) * T := by nlinarith
    exact le_of_mul_le_mul_right this hT
  · have : (p1 * S2 - p2 * S1) * T ≤ (S1 + S2) * T := by nlinarith
    exact le_of_mul_le_mul_right this hT

/-- Witness of `proportionality_up_to_rounding` on stakes 1, 2 and 3. -/
theorem proportionality_up_to_rounding_witness :
    distinctKeys unevenSlots ∧ positiveStakes unevenSlots = true ∧
      ∃ r, Compute unevenSlots = Outcome.roster r ∧
        ∀ s1 ∈ unevenSlots, ∀ s2 ∈ unevenSlots, ∀ S1 S2 : Dec,
          s1.TotalStake = some S1 → s2.TotalStake = some S2 →
          some s1.BlsPublicKey ≠ lastExternalKey unevenSlots →
          some s2.BlsPublicKey ≠ lastExternalKey unevenSlots →
          ∃ v1 v2, mapLookup r.Voters s1.BlsPublicKey = some v1 ∧
            mapLookup r.Voters s2.BlsPublicKey = some v2 ∧
            |v1.EffectivePercent * S2 - v2.EffectivePercent * S1| ≤ S1 + S2 :=
  ⟨by decide, by decide, proportionality_up_to_rounding unevenSlots (by decide) (by decide)⟩

/-- C15. Division safety: for a slot list whose stakes are all positive the
two loops end without a division by zero; an internal slot, the only kind for
which `HarmonysShare.Quo(ourCount)` is evaluated, makes `HmySlotCount ≥ 1`
and `ourCount` non-zero, and an external slot, the only kind for which
`TotalStake.Quo(RawStakedTotal)` is evaluated, makes `RawStakedTotal > 0`. -/
theorem division_safety (staked : SlotList) (hpos : positiveStakes staked = true) :
    (allocate staked).isSome = true ∧ Compute staked ≠ Outcome.divisionByZero ∧
      (∀ s ∈ staked, s.TotalStake = none →
        1 ≤ (countLoop staked NewRoster).HmySlotCount ∧
          (Quo HarmonysShare (NewDec (countLoop staked NewRoster).HmySlotCount)).isSome = true) ∧
      (∀ s ∈ staked, ∀ stake, s.TotalStake = some stake →
        0 < (countLoop staked NewRoster).RawStakedTotal ∧
          (Quo stake (countLoop staked NewRoster).RawStakedTotal).isSome = true) := by
  have hne : hasExternal staked = true → stakeTotal staked ≠ 0 :=
    fun hext => ne_of_gt (stakeTotal_pos staked hpos hext)
  refine ⟨by simp [allocate_isSome staked hne], by simp [Compute_eq staked hne], ?_, ?_⟩
  · intro s hs hnone
    have hc := internalCount_pos_of_mem staked s hs hnone
    rw [countLoop_count]
    have hq : NewDec ((internalCount staked : Nat) : Int) ≠ 0 := NewDec_ne_zero _ (by omega)
    refine ⟨by exact_mod_cast hc, by simp [Quo, hq]⟩
  · intro s hs stake hstake
    have hT := stakeTotal_pos staked hpos (hasExternal_of_mem staked s hs stake hstake)
    rw [countLoop_total]
    exact ⟨hT, by simp [Quo, ne_of_gt hT]⟩

/-- Witness of `division_safety` on one internal slot and three of stake 1. -/
theorem division_safety_witness :
    positiveStakes roundingSlots = true ∧
      (allocate roundingSlots).isSome = true ∧
      Compute roundingSlots ≠ Outcome.divisionByZero ∧
      (∀ s ∈ roundingSlots, s.TotalStake = none →
        1 ≤ (countLoop roundingSlots NewRoster).HmySlotCount ∧
          (Quo HarmonysShare
            (NewDec (countLoop roundingSlots NewRoster).HmySlotCount)).isSome = true) ∧
      (∀ s ∈ roundingSlots, ∀ stake, s.TotalStake = some stake →
        0 < (countLoop roundingSlots NewRoster).RawStakedTotal ∧
          (Quo stake (countLoop roundingSlots NewRoster).RawStakedTotal).isSome = true) :=
  ⟨by decide, division_safety roundingSlots (by decide)⟩

/-- C16. The error branch is unreachable: when `RawStakedTotal` is not zero
whenever an external slot exists, `Compute` returns a roster, in which
`TheirVotingPowerTotalPercentage = 1 - OurVotingPowerTotalPercentage` if an
external slot exists; and no slot list makes `Compute` return
`ErrVotingPowerNotEqualOne`. -/
theorem error_branch_unreachable (staked : SlotList)
    (h : hasExternal staked = true → (countLoop staked NewRoster).RawStakedTotal ≠ 0) :
    (∃ r, Compute staked = Outcome.roster r ∧
        (hasExternal staked = true →
          r.TheirVotingPowerTotalPercentage =
            numeric.Sub OneDec r.OurVotingPowerTotalPercentage)) ∧
      ∀ l : SlotList, Compute l ≠ Outcome.ErrVotingPowerNotEqualOne := by
  rw [countLoop_total] at h
  refine ⟨⟨rosterOf staked, Compute_eq staked h, ?_⟩, Compute_ne_err⟩
  intro hext
  simp [rosterOf, hext]

/-- Witness of `error_branch_unreachable` on a list of one internal slot. -/
theorem error_branch_unreachable_witness :
    (hasExternal [internalSlot 7] = true →
        (countLoop [internalSlot 7] NewRoster).RawStakedTotal ≠ 0) ∧
      (∃ r, Compute [internalSlot 7] = Outcome.roster r ∧
        (hasExternal [internalSlot 7] = true →
          r.TheirVotingPowerTotalPercentage =
            numeric.Sub OneDec r.OurVotingPowerTotalPercentage)) ∧
      ∀ l : SlotList, Compute l ≠ Outcome.ErrVotingPowerNotEqualOne :=
  ⟨by decide, error_branch_unreachable [internalSlot 7] (by decide)⟩

/-- C17. Order independence: for a slot list with distinct keys and positive
stakes and any permutation of it, `Compute` returns rosters with the same
voter for every key (the last external one included), the same entries, the
same two totals, the same `RawStakedTotal` and the same `HmySlotCount`. -/
theorem order_independence (staked staked2 : SlotList) (hperm : staked.Perm staked2)
    (hkeys : distinctKeys staked) (hpos : positiveStakes staked = true) :
    ∃ r r2, Compute staked = Outcome.roster r ∧ Compute staked2 = Outcome.roster r2 ∧
      (∀ k, mapLookup r.Voters k = mapLookup r2.Voters k) ∧
      r.Voters.Perm r2.Voters ∧
      r.OurVotingPowerTotalPercentage = r2.OurVotingPowerTotalPercentage ∧
      r.TheirVotingPowerTotalPercentage = r2.TheirVotingPowerTotalPercentage ∧
      r.RawStakedTotal = r2.RawStakedTotal ∧ r.HmySlotCount = r2.HmySlotCount := by
  have hpos2 : positiveStakes staked2 = true := by
    rw [← positiveStakes_perm staked staked2 hperm]; exact hpos
  exact ⟨rosterOf staked, rosterOf staked2, Compute_of_positive staked hpos,
    Compute_of_positive staked2 hpos2, rosterOf_perm staked staked2 hperm hkeys⟩

/-- Witness of `order_independence` on a list whose remainder is not zero and
a reordering of it with another last external slot. -/
theorem order_independence_witness :
    roundingSlots.Perm roundingSlotsReordered ∧ distinctKeys roundingSlots ∧
      positiveStakes roundingSlots = true ∧
      ∃ r r2, Compute roundingSlots = Outcome.roster r ∧
        Compute roundingSlotsReordered = Outcome.roster r2 ∧
        (∀ k, mapLookup r.Voters k = mapLookup r2.Voters k) ∧
        r.Voters.Perm r2.Voters ∧
        r.OurVotingPowerTotalPercentage = r2.OurVotingPowerTotalPercentage ∧
        r.TheirVotingPowerTotalPercentage = r2.TheirVotingPowerTotalPercentage ∧
        r.RawStakedTotal = r2.RawStakedTotal ∧ r.HmySlotCount = r2.HmySlotCount :=
  ⟨by decide, by decide, by decide,
    order_independence roundingSlots roundingSlotsReordered (by decide) (by decide)
      (by decide)⟩

/-- C18. The remainder before the correction: for a slot list of `n` slots
with positive stakes and an external slot, the two loops end; with an
internal slot the remainder `diff` satisfies `|diff| ≤ n * 10^-18`, and with
external slots only `diff` is within `n * 10^-18` of `0.68` and
`TheirVotingPowerTotalPercentage` is returned as exactly one. The integers
compared here are the values scaled by `10^18`. -/
theorem diff_bounds (staked : SlotList) (hpos : positiveStakes staked = true)
    (hext : hasExternal staked = true) :
    ∃ st r, allocate staked = some st ∧ Compute staked = Outcome.roster r ∧
      (1 ≤ internalCount staked → |diffOf st| ≤ (staked.length : Int)) ∧
      (internalCount staked = 0 →
        |diffOf st - HarmonysShare| ≤ (staked.length : Int) ∧
          r.OurVotingPowerTotalPercentage = ZeroDec ∧
          r.TheirVotingPowerTotalPercentage = OneDec) := by
  have hne : hasExternal staked = true → stakeTotal staked ≠ 0 :=
    fun hx => ne_of_gt (stakeTotal_pos staked hpos hx)
  have ha := allocate_isSome staked hne
  obtain ⟨hour, htheir⟩ := allocate_percentages staked _ ha
  generalize staked.foldl (bodyValue (NewDec (internalCount staked))) (initState staked) = st
    at ha hour htheir
  obtain ⟨t1, t2⟩ := externalPercent_total_bounds staked hpos hext
  have hlen := internal_add_external staked
  have hsum : HarmonysShare + StakersShare = OneDec := by decide
  have hl : (staked.length : Int) = (internalCount staked : Int) + (externalCount staked : Int) := by
    exact_mod_cast hlen.symm
  have hd : diffOf st = OneDec - (st.ourPercentage + st.theirPercentage) := rfl
  refine ⟨st, rosterOf staked, ha, Compute_eq staked hne, ?_, ?_⟩
  · intro hM
    obtain ⟨o1, o2⟩ := our_bounds (internalCount staked) hM
    rw [hd, hour, htheir, abs_le]
    constructor <;> linarith
  · intro hM
    have ho : st.ourPercentage = 0 := by rw [hour, hM]; simp
    have hc : ((internalCount staked : Nat) : Int) = 0 := by exact_mod_cast hM
    refine ⟨?_, ?_, ?_⟩
    · rw [hd, ho, htheir, abs_le]
      constructor <;> linarith
    · simp [rosterOf, hM, ZeroDec]
    · simp [rosterOf, hM, hext, numeric.Sub]

/-- Witness of `diff_bounds` on one internal slot and three of stake 1. -/
theorem diff_bounds_witness :
    positiveStakes roundingSlots = true ∧ hasExternal roundingSlots = true ∧
      ∃ st r, allocate roundingSlots = some st ∧ Compute roundingSlots = Outcome.roster r ∧
        (1 ≤ internalCount roundingSlots → |diffOf st| ≤ (roundingSlots.length : Int)) ∧
        (internalCount roundingSlots = 0 →
          |diffOf st - HarmonysShare| ≤ (roundingSlots.length : Int) ∧
            r.OurVotingPowerTotalPercentage = ZeroDec ∧
            r.TheirVotingPowerTotalPercentage = OneDec) :=
  ⟨by decide, by decide, diff_bounds roundingSlots (by decide) (by decide)⟩

/-- C19. Monotonicity in stake: for a slot list with distinct keys and positive
stakes and two external slots with stakes `S1 ≤ S2`, the roster returned
gives the first an `EffectivePercent` not above that of the second, and
equal stakes give equal percentages. -/
theorem monotone_in_stake (staked : SlotList) (hkeys : distinctKeys staked)
    (hpos : positiveStakes staked = true) :
    ∃ r, Compute staked = Outcome.roster r ∧
      ∀ s1 ∈ staked, ∀ s2 ∈ staked, ∀ S1 S2 : Dec,
        s1.TotalStake = some S1 → s2.TotalStake = some S2 → S1 ≤ S2 →
        ∃ v1 v2, mapLookup r.Voters s1.BlsPublicKey = some v1 ∧
          mapLookup r.Voters s2.BlsPublicKey = some v2 ∧
          v1.EffectivePercent ≤ v2.EffectivePercent ∧
          (S1 = S2 → v1.EffectivePercent = v2.EffectivePercent) := by
  refine ⟨rosterOf staked, Compute_of_positive staked hpos, ?_⟩
  intro s1 hs1 s2 hs2 S1 S2 h1 h2 hle
  have hS1 := stake_pos_of_mem staked hpos s1 hs1 S1 h1
  have hT := stakeTotal_pos staked hpos (hasExternal_of_mem staked s1 hs1 S1 h1)
  refine ⟨_, _, rosterOf_lookup staked hkeys s1 hs1, rosterOf_lookup staked hkeys s2 hs2, ?_, ?_⟩
  · simp only [voterOf, h1, h2]
    exact Mul_mono _ _ _ (quoValue_nonneg S1 _ (le_of_lt hS1) hT)
      (quoValue_mono S1 S2 _ (le_of_lt hS1) hle hT) (by decide)
  · intro he
    simp only [voterOf, h1, h2, he]

/-- Witness of `monotone_in_stake` on stakes 1, 2 and 3. -/
theorem monotone_in_stake_witness :
    distinctKeys unevenSlots ∧ positiveStakes unevenSlots = true ∧
      ∃ r, Compute unevenSlots = Outcome.roster r ∧
        ∀ s1 ∈ unevenSlots, ∀ s2 ∈ unevenSlots, ∀ S1 S2 : Dec,
          s1.TotalStake = some S1 → s2.TotalStake = some S2 → S1 ≤ S2 →
          ∃ v1 v2, mapLookup r.Voters s1.BlsPublicKey = some v1 ∧
            mapLookup r.Voters s2.BlsPublicKey = some v2 ∧
            v1.EffectivePercent ≤ v2.EffectivePercent ∧
            (S1 = S2 → v1.EffectivePercent = v2.EffectivePercent) :=
  ⟨by decide, by decide, monotone_in_stake unevenSlots (by decide) (by decide)⟩

end votepower
